import Mathlib

/-!
# Template materialization in `g8/cmd_new.go`

A shallow embedding of `transformFilename`, `newProject` and `isVerbatim`, together with
the parts of the Go standard library they rest on (`regexp.Split` for the fixed separator
class, `filepath.Clean`, `filepath.Join`, `filepath.Dir`, `filepath.Walk`).

Conventions.

* A Go `string` / `[]byte` is a list of bytes, written `Str`; every `Char` stands for one
  byte, so `List.length` is Go's `len` and `List.drop n` is the slice `s[n:]`.
* The operating system and the external packages are parameters: `Env` holds the absent
  functions of the repository (`template.Render`, `template.Normalize`,
  `relativePathToTemp ∘ userAndRepoNames`) and `filepath.Match`; `OS` holds the answers
  of the file system to `exists`, `os.MkdirAll`, `ioutil.ReadFile`, `ioutil.WriteFile`.
* Effects are recorded, in program order, in a `Trace` of `Event`s; the answers of the
  destination file system may depend on the trace so far.
* The source tree handed to `filepath.Walk` is a finite `Node`; it is what `os.Lstat`
  and `readDirNames` report below the codebase root, and it is not modified by the run.
* A run ends in a `Result`: a normal return of an `error`, termination of the process by
  `check`, or a runtime panic.
* Errors answered by the renderer and by file operations are ordinary errors (`ErrMsg`),
  never the sentinels `filepath.SkipDir` and `filepath.SkipAll`.
-/

namespace G8

/-- Go `string` and `[]byte`: a sequence of bytes. -/
abbrev Str := List Char

/-- Message carried by an ordinary (non sentinel) Go error. -/
abbrev ErrMsg := String

/-- Go `error` values as seen by `filepath.Walk`: its two sentinels and everything else.
Errors coming from the renderer and from file operations are always `other`. -/
inductive GoError where
  | SkipDir
  | SkipAll
  | other (msg : ErrMsg)
deriving DecidableEq, Repr

/-- Runtime faults of the Go program. -/
inductive Panic where
  | nilDereference
  | sliceBounds
deriving DecidableEq, Repr

/-- The way a call ends: `ret err` is a normal return of the `error` value `err`
(`none` is `nil`), `fatal` is process termination by `check`, `panic` a runtime fault. -/
inductive Result where
  | ret (err : Option GoError)
  | fatal (err : GoError)
  | panic (p : Panic)
deriving DecidableEq, Repr

deriving instance DecidableEq for Except

/-- Go `map[string]string`; the first binding of a key is the live one. -/
abbrev Fields := List (Str × Str)

/-- Two-valued map read `val, ok := fields[key]`. -/
def Fields.lookup (fields : Fields) (key : Str) : Option Str :=
  match fields with
  | [] => none
  | (k, v) :: rest => if k = key then some v else Fields.lookup rest key

/-- Map read `fields[key]`: the zero value `""` for a missing key. -/
def Fields.get (fields : Fields) (key : Str) : Str :=
  (Fields.lookup fields key).getD []

/-- Builtin `delete(fields, key)`. -/
def Fields.delete (fields : Fields) (key : Str) : Fields :=
  fields.filter (fun kv => decide (kv.1 ≠ key))

/-- The part of `os.FileInfo` the program reads. -/
structure FileInfo where
  Name : Str
  IsDir : Bool
  Mode : Nat
deriving DecidableEq, Repr

/-- Method `FileMode.Perm`: the permission bits `m & 0777`. -/
def Perm (m : Nat) : Nat := m &&& 0o777

/-- The part of `*url.URL` the program reads. -/
structure URL where
  Scheme : Str
  Path : Str
deriving DecidableEq, Repr

/-- Observable calls, in program order. `mkdirAll` and `writeFile` carry the error the
operating system answered (`none` for success). -/
inductive Event where
  | render (src : Str) (fields : Fields)
  | print (msg : Str)
  | mkdirAll (dir : Str) (perm : Nat) (res : Option ErrMsg)
  | writeFile (path : Str) (data : Str) (perm : Nat) (res : Option ErrMsg)
deriving DecidableEq, Repr

abbrev Trace := List Event

/-- Functions the program calls that live outside `cmd_new.go`. -/
structure Env where
  /-- Package function `template.Render`. -/
  Render : Str → Fields → Except ErrMsg Str
  /-- Package function `template.Normalize`. -/
  Normalize : Str → Str
  /-- Library function `filepath.Match pattern name`; an error is `ErrBadPattern`. -/
  Match : Str → Str → Except ErrMsg Bool
  /-- The value of `relativePathToTemp(userAndRepoNames(repo), "src/main/g8")`. -/
  relativePathToTemp : URL → Str

/-- Answers of the file system. -/
structure OS where
  /-- Helper `exists(path)` of package main. -/
  pathExists : Trace → Str → Bool
  /-- Library function `os.MkdirAll`. -/
  MkdirAll : Trace → Str → Nat → Option ErrMsg
  /-- Library function `ioutil.ReadFile` on the (read-only) source tree. -/
  ReadFile : Str → Except ErrMsg Str
  /-- Library function `ioutil.WriteFile`. -/
  WriteFile : Trace → Str → Str → Nat → Option ErrMsg

/-! ## `regexp.MustCompile("[,;:\\s]+").Split(s, -1)` -/

/-- Perl class `\s` of Go's `regexp/syntax`: `[\t\n\f\r ]`. -/
def isPerlSpace (c : Char) : Bool :=
  c = '\t' || c = '\n' || c = '\x0c' || c = '\r' || c = ' '

/-- The character class `[,;:\s]` of the pattern compiled in `newProject`. -/
def isSep (c : Char) : Bool :=
  c = ',' || c = ';' || c = ':' || isPerlSpace c

/-- Scan for `Split`: `inRun` tells that the previous byte belonged to a match of
`[..]+`, `cur` is the piece collected since the last match (reversed). -/
def splitScan (sep : Char → Bool) : Bool → Str → Str → List Str
  | _, cur, [] => [cur.reverse]
  | inRun, cur, c :: cs =>
    if sep c then
      if inRun then splitScan sep true [] cs
      else cur.reverse :: splitScan sep true [] cs
    else splitScan sep false (c :: cur) cs

/-- Method `(*Regexp).Split(s, -1)` for a pattern `[class]+`: the successive matches are
the maximal runs of class bytes; the pieces before, between and after them are returned
(`[""]` for the empty string). -/
def Split (sep : Char → Bool) (s : Str) : List Str :=
  splitScan sep false [] s

/-! ## `path/filepath` (Unix) -/

/-- Pieces of a path between separators (`'/'`), empty pieces included. -/
def splitSlash : Str → List Str
  | [] => [[]]
  | c :: cs =>
    if c = '/' then [] :: splitSlash cs
    else
      match splitSlash cs with
      | [] => [[c]]
      | p :: ps => (c :: p) :: ps

/-- One turn of the loop of `filepath.Clean` on a whole path element; `out` is the list
of elements written so far, last one first. -/
def cleanStep (rooted : Bool) (out : List Str) (elem : Str) : List Str :=
  if elem = [] then out
  else if elem = ['.'] then out
  else if elem = ['.', '.'] then
    match out with
    | top :: rest => if top = ['.', '.'] then elem :: out else rest
    | [] => if rooted then [] else [elem]
  else elem :: out

/-- Elements joined by the separator. -/
def joinSlash : List Str → Str
  | [] => []
  | [e] => e
  | e :: f :: es => e ++ '/' :: joinSlash (f :: es)

/-- Library function `filepath.Clean`. -/
def Clean (path : Str) : Str :=
  match path with
  | [] => ['.']
  | c :: _ =>
    let rooted := decide (c = '/')
    let out := (splitSlash path).foldl (cleanStep rooted) []
    if rooted then '/' :: joinSlash out.reverse
    else if out = [] then ['.'] else joinSlash out.reverse

/-- Library function `filepath.Join` for two elements. -/
def Join (a b : Str) : Str :=
  if a ≠ [] then Clean (a ++ '/' :: b)
  else if b ≠ [] then Clean b
  else []

/-- The slice `path[:i+1]`, `i` the index of the last separator (`-1` if none). -/
def throughLastSlash (path : Str) : Str :=
  (path.reverse.dropWhile (fun c => decide (c ≠ '/'))).reverse

/-- Library function `filepath.Dir`. -/
def Dir (path : Str) : Str := Clean (throughLastSlash path)

/-! ## The source tree and `filepath.Walk` -/

mutual
/-- What `os.Lstat` and `readDirNames` report for a path of the source tree. -/
inductive Node where
  /-- `Lstat` succeeds and the entry is not a directory. -/
  | file (name : Str) (mode : Nat)
  /-- A directory whose names can be read; `kids` are its entries in sorted order. -/
  | dir (name : Str) (mode : Nat) (kids : NodeList)
  /-- A directory for which `readDirNames` fails with `err`. -/
  | lockedDir (name : Str) (mode : Nat) (err : ErrMsg)
  /-- A name for which `Lstat` fails with `err`. -/
  | gone (name : Str) (err : ErrMsg)
/-- Entries of a directory. -/
inductive NodeList where
  | nil
  | cons (k : Node) (ks : NodeList)
end

/-- Name of an entry, as listed in its directory. -/
def Node.name : Node → Str
  | .file n _ => n
  | .dir n _ _ => n
  | .lockedDir n _ _ => n
  | .gone n _ => n

/-- Type `filepath.WalkFunc`, with the trace threaded through. -/
abbrev WalkFunc := Str → Option FileInfo → Option GoError → Trace → Trace × Result

mutual
/-- Library function `walk` of `path/filepath`; for a `gone` node the caller's call of
the function on the failed `Lstat` is made here. -/
def walk (fn : WalkFunc) (path : Str) : Node → Trace → Trace × Result
  | .file name mode, tr => fn path (some ⟨name, false, mode⟩) none tr
  | .lockedDir name mode err, tr => fn path (some ⟨name, true, mode⟩) (some (.other err)) tr
  | .gone _ err, tr => fn path none (some (.other err)) tr
  | .dir name mode kids, tr =>
    match fn path (some ⟨name, true, mode⟩) none tr with
    | (tr1, .ret none) => walkNames fn path kids tr1
    | r => r
/-- The loop `for _, name := range names` of `walk`. -/
def walkNames (fn : WalkFunc) (path : Str) : NodeList → Trace → Trace × Result
  | .nil, tr => (tr, .ret none)
  | .cons k ks, tr =>
    let filename := Join path k.name
    match k with
    | .gone _ err =>
      match fn filename none (some (.other err)) tr with
      | (tr1, .ret none) => walkNames fn path ks tr1
      | (tr1, .ret (some e)) =>
        if e ≠ .SkipDir then (tr1, .ret (some e)) else walkNames fn path ks tr1
      | r => r
    | .file _ _ =>
      match walk fn filename k tr with
      | (tr1, .ret none) => walkNames fn path ks tr1
      | r => r
    | .dir _ _ _ =>
      match walk fn filename k tr with
      | (tr1, .ret none) => walkNames fn path ks tr1
      | (tr1, .ret (some e)) =>
        if e ≠ .SkipDir then (tr1, .ret (some e)) else walkNames fn path ks tr1
      | r => r
    | .lockedDir _ _ _ =>
      match walk fn filename k tr with
      | (tr1, .ret none) => walkNames fn path ks tr1
      | (tr1, .ret (some e)) =>
        if e ≠ .SkipDir then (tr1, .ret (some e)) else walkNames fn path ks tr1
      | r => r
end

/-- Library function `filepath.Walk(root, fn)`; `node` is what the file system holds at
`root`. -/
def Walk (fn : WalkFunc) (root : Str) (node : Node) (tr : Trace) : Trace × Result :=
  match walk fn root node tr with
  | (tr1, .ret (some e)) =>
    if e = .SkipDir ∨ e = .SkipAll then (tr1, .ret none) else (tr1, .ret (some e))
  | r => r

/-! ## `cmd_new.go` -/

/-- Modelled from the spec: `check`, a helper of package main that is absent from the
sources ("fail fast (fatal)", "terminating the process on first error"): a non-nil error
ends the process with that error, `nil` lets execution go on. The result is the error
the process dies with, if any. -/
def check (err : Option GoError) : Option GoError := err

/-- Library function `errors.New`. -/
def errorsNew (msg : ErrMsg) : GoError := .other msg

/-- A call of `template.Render`, recorded in the trace. -/
def callRender (env : Env) (src : Str) (fields : Fields) (tr : Trace) :
    Trace × Except ErrMsg Str :=
  (tr ++ [.render src fields], env.Render src fields)

/-- Function `transformFilename`. -/
def transformFilename (env : Env) (filename : Str) (fields : Fields) (tr : Trace) :
    Trace × Except ErrMsg Str :=
  match callRender env filename fields tr with
  | (tr1, .error err) => (tr1, .error err)
  | (tr1, .ok result) => (tr1, .ok result)

/-- Function `isVerbatim`. -/
def isVerbatim (env : Env) (f : FileInfo) : List Str → Bool
  | [] => false
  | v :: rest =>
    let matched := match env.Match v f.Name with
      | .ok b => b
      | .error _ => false
    if matched then true else isVerbatim env f rest

/-- The value of `verbatim` computed by `newProject` (lines 100-103). -/
def verbatimOf (fields : Fields) : List Str :=
  match Fields.lookup fields "verbatim".toList with
  | some val => if val ≠ [] then Split isSep (Fields.get fields "verbatim".toList) else []
  | none => []

/-- The codebase root computed by `newProject` (lines 106-111). -/
def codebaseOf (env : Env) (repo : URL) : Str :=
  if repo.Scheme = "file".toList then repo.Path ++ "/src/main/g8".toList
  else env.relativePathToTemp repo

/-- The function literal passed to `filepath.Walk` in `newProject`; `target`, `fields`,
`verbatim` and `prefixLen` are the captured variables. -/
def walkFn (env : Env) (os : OS) (target : Str) (fields : Fields) (verbatim : List Str)
    (prefixLen : Nat) : WalkFunc := fun path f _err tr =>
  match f with
  | none => (tr, .panic .nilDereference)
  | some f =>
    if f.IsDir || decide (f.Name = "default.properties".toList) then (tr, .ret none)
    else if path.length < prefixLen then (tr, .panic .sliceBounds)
    else
      let relative := path.drop prefixLen
      match transformFilename env (target ++ relative) fields tr with
      | (tr1, .error err) => (tr1, .ret (some (.other err)))
      | (tr1, .ok destFileName) =>
        let dirname := Dir destFileName
        let tr2 :=
          if !os.pathExists tr1 dirname then
            let tr1p := tr1 ++ [.print ("creating directory, ".toList ++ dirname ++ ['\n'])]
            tr1p ++ [.mkdirAll dirname 0o755 (os.MkdirAll tr1p dirname 0o755)]
          else tr1
        let tr3 := tr2 ++ [.print ("generating ".toList ++ destFileName ++ ['\n'])]
        match os.ReadFile path with
        | .error err => (tr3, .ret (some (.other err)))
        | .ok inContent =>
          if !isVerbatim env f verbatim then
            match callRender env inContent fields tr3 with
            | (tr4, .error err) => (tr4, .ret (some (.other err)))
            | (tr4, .ok outContent) =>
              let res := os.WriteFile tr4 destFileName outContent (Perm f.Mode)
              (tr4 ++ [.writeFile destFileName outContent (Perm f.Mode) res],
                .ret (res.map .other))
          else
            let res := os.WriteFile tr3 destFileName inContent (Perm f.Mode)
            (tr3 ++ [.writeFile destFileName inContent (Perm f.Mode) res],
              .ret (res.map .other))

/-- Function `newProject`; `tree` is what the file system holds at the codebase root. -/
def newProject (env : Env) (os : OS) (repo : URL) (tree : Node) (fields : Fields) :
    Trace × Result :=
  let fields1 := Fields.delete fields "description".toList
  let target := env.Normalize (Fields.get fields1 "name".toList)
  match (if target = [] then check (some (errorsNew "no [name] parameter defined"))
         else none) with
  | some e => ([], .fatal e)
  | none =>
    let verbatim := verbatimOf fields1
    let fields2 := Fields.delete fields1 "verbatim".toList
    let codebase := codebaseOf env repo
    let prefixLen := codebase.length
    Walk (walkFn env os target fields2 verbatim prefixLen) codebase tree []

/-- The destination root computed by `newProject` (line 95). -/
def targetOf (env : Env) (fields : Fields) : Str :=
  env.Normalize (Fields.get (Fields.delete fields "description".toList) "name".toList)

/-- The mapping left after both deletions of `newProject` (lines 93 and 104). -/
def renderFieldsOf (fields : Fields) : Fields :=
  Fields.delete (Fields.delete fields "description".toList) "verbatim".toList

/-- The verbatim patterns `newProject` computes from its argument (lines 93, 100-103). -/
def patternsOf (fields : Fields) : List Str :=
  verbatimOf (Fields.delete fields "description".toList)

/-- The walk function of `newProject` with the variables it captures. -/
def newProjectFn (env : Env) (os : OS) (repo : URL) (fields : Fields) : WalkFunc :=
  walkFn env os (targetOf env fields) (renderFieldsOf fields) (patternsOf fields)
    (codebaseOf env repo).length

/-- The trace of the walk function after the directory step (lines 126-130) and the
progress message (line 132); `tr1` is the trace after the file name was rendered. -/
def prepared (os : OS) (tr1 : Trace) (destFileName : Str) : Trace :=
  (if !os.pathExists tr1 (Dir destFileName) then
    tr1 ++ [.print ("creating directory, ".toList ++ Dir destFileName ++ ['\n'])]
      ++ [.mkdirAll (Dir destFileName) 0o755
            (os.MkdirAll
              (tr1 ++ [.print ("creating directory, ".toList ++ Dir destFileName ++ ['\n'])])
              (Dir destFileName) 0o755)]
   else tr1) ++ [.print ("generating ".toList ++ destFileName ++ ['\n'])]

/-! ## The walk as a list of visits -/

/-- The walk function never answers with one of the sentinels of `filepath.Walk`. -/
def NoSentinel (fn : WalkFunc) : Prop :=
  ∀ path f err tr, (fn path f err tr).2 ≠ .ret (some .SkipDir) ∧
    (fn path f err tr).2 ≠ .ret (some .SkipAll)

/-- One call of the walk function: the arguments `path`, `info`, `err`. -/
structure Visit where
  path : Str
  info : Option FileInfo
  err : Option GoError
deriving DecidableEq, Repr

mutual
/-- The calls `walk` makes, in order, when no call stops it. -/
def visits (path : Str) : Node → List Visit
  | .file name mode => [⟨path, some ⟨name, false, mode⟩, none⟩]
  | .lockedDir name mode err => [⟨path, some ⟨name, true, mode⟩, some (.other err)⟩]
  | .gone _ err => [⟨path, none, some (.other err)⟩]
  | .dir name mode kids => ⟨path, some ⟨name, true, mode⟩, none⟩ :: visitsNames path kids
/-- The calls the loop over the names of a directory makes. -/
def visitsNames (path : Str) : NodeList → List Visit
  | .nil => []
  | .cons k ks => visits (Join path k.name) k ++ visitsNames path ks
end

/-- The walk function applied to successive visits until one does not return `nil`. -/
def runVisits (fn : WalkFunc) : List Visit → Trace → Trace × Result
  | [], tr => (tr, .ret none)
  | v :: vs, tr =>
    match fn v.path v.info v.err tr with
    | (tr1, .ret none) => runVisits fn vs tr1
    | r => r

/-- The visit is one the callback of `newProject` does not skip: it carries file
information, is not a directory and is not named `default.properties`. -/
def Visit.kept (v : Visit) : Bool :=
  match v.info with
  | some f => !(f.IsDir || decide (f.Name = "default.properties".toList))
  | none => false

/-- The visits of the walk of `newProject` that its walk function does not skip. -/
def keptVisits (env : Env) (repo : URL) (tree : Node) : List Visit :=
  (visits (codebaseOf env repo) tree).filter Visit.kept

/-- Every `render` event of the trace carries the mapping `m`. -/
def RendersWith (m : Fields) (tr : Trace) : Prop :=
  ∀ src m1, Event.render src m1 ∈ tr → m1 = m

/-- The calls of the renderer recorded in a trace, in order. -/
def rendersOf (tr : Trace) : List Event :=
  tr.filter (fun e => match e with
    | .render _ _ => true
    | _ => false)

/-- The `ioutil.WriteFile` calls of a trace that succeeded. -/
def writesOf (tr : Trace) : List Event :=
  tr.filter (fun e => match e with
    | .writeFile _ _ _ none => true
    | _ => false)

/-- `w` is the successful write that materializes the visit `v`: the file of `v` is
written to the rendered path `target ++ v.path[prefixLen:]`, with the permission bits of
the source, and with the bytes read from `v.path`, unchanged when the base name matches
a verbatim pattern and rendered otherwise. -/
def Materializes (env : Env) (os : OS) (target : Str) (fields : Fields)
    (verbatim : List Str) (prefixLen : Nat) (v : Visit) (w : Event) : Prop :=
  ∃ f dest content data, v.info = some f ∧
    env.Render (target ++ v.path.drop prefixLen) fields = .ok dest ∧
    os.ReadFile v.path = .ok content ∧
    (if isVerbatim env f verbatim = true then data = content
     else env.Render content fields = .ok data) ∧
    w = .writeFile dest data (Perm f.Mode) none

/-- Destination path of a `writeFile` event (empty for any other event). -/
def Event.dest : Event → Str
  | .writeFile p _ _ _ => p
  | _ => []

/-- The string `newProject` hands to the renderer as file name for the visit `v`. -/
def templatedPath (env : Env) (repo : URL) (fields : Fields) (v : Visit) : Str :=
  targetOf env fields ++ v.path.drop (codebaseOf env repo).length

/-- A root from which `filepath.Join` only appends: it is in cleaned form and is neither
`/` nor `.`. -/
def GoodRoot (p : Str) : Prop := Clean p = p ∧ p ≠ ['/'] ∧ p ≠ ['.']

/-- The path `q` is `p` itself or lies below the directory `p`. -/
def Below (p q : Str) : Prop :=
  ∃ rest, q = p ++ rest ∧ (rest = [] ∨ rest.head? = some '/')

/-- A plain file name: not empty, without separator, neither `.` nor `..`. -/
def plainName (n : Str) : Bool :=
  decide (n ≠ []) && decide ('/' ∉ n) && decide (n ≠ ['.']) && decide (n ≠ ['.', '.'])

/-- Names of the entries of a directory. -/
def NodeList.names : NodeList → List Str
  | .nil => []
  | .cons k ks => k.name :: NodeList.names ks

mutual
/-- Below the root every entry has a plain name and no directory lists a name twice,
as in any directory listing. -/
def Node.wellFormed : Node → Bool
  | .dir _ _ kids => NodeList.wellFormed kids && decide (NodeList.names kids).Nodup
  | _ => true
/-- Well-formedness of the entries of a directory. -/
def NodeList.wellFormed : NodeList → Bool
  | .nil => true
  | .cons k ks => plainName k.name && Node.wellFormed k && NodeList.wellFormed ks
end

/-! ## Declarative reading of the splitting -/

/-- `IsSplit sep s pieces`: `pieces` are the parts of `s` before, between and after the
maximal runs of bytes satisfying `sep`. -/
inductive IsSplit (sep : Char → Bool) : Str → List Str → Prop where
  | last (p : Str) (hp : ∀ c ∈ p, sep c = false) : IsSplit sep p [p]
  | cons (p run rest : Str) (pieces : List Str)
      (hp : ∀ c ∈ p, sep c = false)
      (hne : run ≠ []) (hrun : ∀ c ∈ run, sep c = true)
      (hmax : ∀ c, rest.head? = some c → sep c = false)
      (h : IsSplit sep rest pieces) :
      IsSplit sep (p ++ run ++ rest) (p :: pieces)

/-- The separators named by the data model of the specification: comma, semicolon and
white space. -/
def specSep (c : Char) : Bool :=
  c = ',' || c = ';' || c.isWhitespace

/-! ## Sample collaborators -/

/-- Scan of `dollarRender`; the first argument is the key being read, if any. -/
def dollarScan (fields : Fields) : Option Str → Str → Except ErrMsg Str
  | none, [] => .ok []
  | some _, [] => .error "unclosed placeholder"
  | none, c :: cs =>
    if c = '$' then dollarScan fields (some []) cs
    else (dollarScan fields none cs).map (c :: ·)
  | some k, c :: cs =>
    if c = '$' then
      match Fields.lookup fields k.reverse with
      | some v => (dollarScan fields none cs).map (v ++ ·)
      | none => .error "undefined field"
    else dollarScan fields (some (c :: k)) cs

/-- A sample renderer with giter8 placeholders: `$key$` is replaced by the value of
`key`; an undefined key or an unclosed placeholder is an error. -/
def dollarRender (src : Str) (fields : Fields) : Except ErrMsg Str :=
  dollarScan fields none src

/-- A sample matcher: a pattern `*suffix` matches the names ending in `suffix`, a pattern
containing `[` is malformed, any other pattern matches itself only. -/
def sampleMatch (pattern name : Str) : Except ErrMsg Bool :=
  if '[' ∈ pattern then .error "syntax error in pattern"
  else match pattern with
    | '*' :: suffix => .ok (suffix.isSuffixOf name)
    | _ => .ok (decide (pattern = name))

/-- Sample collaborators: `dollarRender`, the identity as `Normalize`, `sampleMatch`, and
a temporary checkout below `/tmp/g8`. -/
def sampleEnv : Env where
  Render := dollarRender
  Normalize := id
  Match := sampleMatch
  relativePathToTemp := fun _ => "/tmp/g8/src/main/g8".toList

/-- A file system on which every directory creation and every write succeeds; `files`
are the readable source files with their content, and a directory exists once it has
been created. -/
def sampleOS (files : List (Str × Str)) : OS where
  pathExists := fun tr d => tr.any (fun e => match e with
    | .mkdirAll d1 _ none => decide (d1 = d)
    | _ => false)
  MkdirAll := fun _ _ _ => none
  ReadFile := fun p => match Fields.lookup files p with
    | some c => .ok c
    | none => .error "no such file or directory"
  WriteFile := fun _ _ _ _ => none

/-- A file system on which no source file can be opened for reading; directories can be
created and files written. -/
def unreadableOS : OS where
  pathExists := fun tr d => tr.any (fun e => match e with
    | .mkdirAll d1 _ none => decide (d1 = d)
    | _ => false)
  MkdirAll := fun _ _ _ => none
  ReadFile := fun _ => .error "open: permission denied"
  WriteFile := fun _ _ _ _ => none

/-- A file system whose working directory is not writable: no directory can be created
and every write fails because its directory is missing. -/
def readOnlyOS (files : List (Str × Str)) : OS where
  pathExists := fun _ _ => false
  MkdirAll := fun _ _ _ => some "mkdir: permission denied"
  ReadFile := fun p => match Fields.lookup files p with
    | some c => .ok c
    | none => .error "no such file or directory"
  WriteFile := fun _ _ _ _ => some "open: no such file or directory"

/-- The scenario template: `g8/{$name$.conf, default.properties}`. -/
def scenarioTree : Node :=
  .dir "g8".toList 0o755
    (.cons (.file "$name$.conf".toList 0o644)
      (.cons (.file "default.properties".toList 0o644) .nil))

/-- Content of the scenario template below the checkout `/t`. -/
def scenarioFiles : List (Str × Str) :=
  [("/t/src/main/g8/$name$.conf".toList, "owner=$owner$".toList),
   ("/t/src/main/g8/default.properties".toList, "name=demo".toList)]

/-- The scenario mapping: `name` is `demo`, `owner` is `alice`, with a description. -/
def scenarioFields : Fields :=
  [("name".toList, "demo".toList), ("owner".toList, "alice".toList),
   ("description".toList, "a demo".toList)]

/-- The scenario template with a content the sample renderer rejects: the placeholder
of `owner=$owner` is not closed. -/
def rawFiles : List (Str × Str) :=
  [("/t/src/main/g8/$name$.conf".toList, "owner=$owner".toList),
   ("/t/src/main/g8/default.properties".toList, "name=demo".toList)]

/-- The scenario mapping with the verbatim patterns `*.conf`. -/
def verbatimFields : Fields :=
  ("verbatim".toList, "*.conf".toList) :: scenarioFields

/-- A template holding the single file `a`. -/
def tinyTree : Node :=
  .dir "g8".toList 0o755 (.cons (.file "a".toList 0o644) .nil)

/-- A template holding `$name$.conf` next to `demo.conf`. -/
def collisionTree : Node :=
  .dir "g8".toList 0o755
    (.cons (.file "$name$.conf".toList 0o644)
      (.cons (.file "demo.conf".toList 0o644) .nil))

/-- Content of `collisionTree` below the checkout `/t`. -/
def collisionFiles : List (Str × Str) :=
  [("/t/src/main/g8/$name$.conf".toList, "owner=$owner$".toList),
   ("/t/src/main/g8/demo.conf".toList, "fixed".toList)]

/-- A template holding `$name$.conf` next to `a.txt`. -/
def pairTree : Node :=
  .dir "g8".toList 0o755
    (.cons (.file "$name$.conf".toList 0o644)
      (.cons (.file "a.txt".toList 0o644) .nil))

/-- Content of `pairTree` below the checkout `/t`. -/
def pairFiles : List (Str × Str) :=
  [("/t/src/main/g8/$name$.conf".toList, "owner=$owner$".toList),
   ("/t/src/main/g8/a.txt".toList, "hello".toList)]

/-- The local template `file:///t`. -/
def localRepo : URL := ⟨"file".toList, "/t".toList⟩

/-- The same template given with a trailing slash, `file:///t/`. -/
def slashRepo : URL := ⟨"file".toList, "/t/".toList⟩

/-! ## The library models on documented examples -/

theorem Clean_examples :
    Clean "a/c".toList = "a/c".toList ∧
    Clean "a//c".toList = "a/c".toList ∧
    Clean "a/c/.".toList = "a/c".toList ∧
    Clean "a/c/b/..".toList = "a/c".toList ∧
    Clean "/../a/c".toList = "/a/c".toList ∧
    Clean "/../a/b/../././/c".toList = "/a/c".toList ∧
    Clean "../../x/".toList = "../../x".toList ∧
    Clean "x/..".toList = ".".toList ∧
    Clean "/".toList = "/".toList ∧
    Clean "".toList = ".".toList := by
  decide

theorem Dir_examples :
    Dir "/foo/bar/baz.js".toList = "/foo/bar".toList ∧
    Dir "/foo/bar/baz/".toList = "/foo/bar/baz".toList ∧
    Dir "/dirty//path///".toList = "/dirty/path".toList ∧
    Dir "dev.txt".toList = ".".toList ∧
    Dir "../todo.txt".toList = "..".toList ∧
    Dir "/".toList = "/".toList ∧
    Dir "".toList = ".".toList := by
  decide

theorem Join_examples :
    Join "a".toList "b".toList = "a/b".toList ∧
    Join "a".toList "".toList = "a".toList ∧
    Join "".toList "b".toList = "b".toList ∧
    Join "a/".toList "b".toList = "a/b".toList ∧
    Join "a/b".toList "../../../xyz".toList = "../xyz".toList ∧
    Join "/t//src/main/g8".toList "a".toList = "/t/src/main/g8/a".toList := by
  decide

theorem Split_examples :
    Split isSep "*.png, *.jpg;data".toList
      = ["*.png".toList, "*.jpg".toList, "data".toList] ∧
    Split isSep "a,".toList = ["a".toList, []] ∧
    Split isSep " a".toList = [[], "a".toList] ∧
    Split isSep ",".toList = [[], []] ∧
    Split isSep "abc".toList = ["abc".toList] ∧
    Split isSep "".toList = [[]] := by
  decide

/-! ## Field mappings -/

theorem Fields.delete_cons (kv : Str × Str) (rest : Fields) (key : Str) :
    Fields.delete (kv :: rest) key
      = if kv.1 = key then Fields.delete rest key else kv :: Fields.delete rest key := by
  by_cases h : kv.1 = key <;> simp [Fields.delete, List.filter_cons, h]

theorem Fields.lookup_cons (k v : Str) (rest : Fields) (key : Str) :
    Fields.lookup ((k, v) :: rest) key
      = if k = key then some v else Fields.lookup rest key := rfl

theorem Fields.lookup_delete_ne (fields : Fields) (key k : Str) (h : k ≠ key) :
    Fields.lookup (Fields.delete fields key) k = Fields.lookup fields k := by
  induction fields with
  | nil => rfl
  | cons kv rest ih =>
    obtain ⟨k1, v1⟩ := kv
    rw [Fields.delete_cons, Fields.lookup_cons]
    by_cases hk : k1 = key
    · have hne : ¬ k1 = k := fun e => h (e.symm.trans hk)
      rw [if_pos hk, if_neg hne]
      exact ih
    · rw [if_neg hk, Fields.lookup_cons, ih]

theorem Fields.lookup_delete_self (fields : Fields) (key : Str) :
    Fields.lookup (Fields.delete fields key) key = none := by
  induction fields with
  | nil => rfl
  | cons kv rest ih =>
    obtain ⟨k1, v1⟩ := kv
    rw [Fields.delete_cons]
    by_cases hk : k1 = key
    · rw [if_pos hk]
      exact ih
    · rw [if_neg hk, Fields.lookup_cons, if_neg hk]
      exact ih

theorem Fields.get_delete_ne (fields : Fields) (key k : Str) (h : k ≠ key) :
    Fields.get (Fields.delete fields key) k = Fields.get fields k := by
  unfold Fields.get
  rw [Fields.lookup_delete_ne fields key k h]

/-! ## Splitting -/

theorem splitScan_noSep (sep : Char → Bool) (s : Str) :
    ∀ (b : Bool) (cur : Str), (∀ c ∈ s, sep c = false) →
      splitScan sep b cur s = [cur.reverse ++ s] := by
  induction s with
  | nil => intro b cur _; simp [splitScan]
  | cons c cs ih =>
    intro b cur h
    have hc : sep c = false := h c (List.mem_cons_self _ _)
    have hcs : ∀ d ∈ cs, sep d = false := fun d hd => h d (List.mem_cons_of_mem _ hd)
    simp [splitScan, hc, ih false (c :: cur) hcs]

theorem splitScan_inRun (sep : Char → Bool) (s : Str) :
    ∃ run rest, s = run ++ rest ∧ (∀ c ∈ run, sep c = true) ∧
      (∀ c, rest.head? = some c → sep c = false) ∧
      splitScan sep true [] s = splitScan sep false [] rest := by
  induction s with
  | nil => exact ⟨[], [], rfl, by simp, by simp, by simp [splitScan]⟩
  | cons c cs ih =>
    by_cases hc : sep c = true
    · obtain ⟨run, rest, hs, hrun, hmax, heq⟩ := ih
      refine ⟨c :: run, rest, by simp [hs], ?_, hmax, ?_⟩
      · intro d hd
        rcases List.mem_cons.1 hd with rfl | hd
        · exact hc
        · exact hrun d hd
      · simp [splitScan, hc, heq]
    · have hc' : sep c = false := by simpa using hc
      refine ⟨[], c :: cs, rfl, by simp, ?_, ?_⟩
      · intro d hd
        simp at hd
        subst hd
        exact hc'
      · simp [splitScan, hc']

theorem splitScan_isSplit (sep : Char → Bool) :
    ∀ (n : Nat) (s cur : Str), s.length ≤ n → (∀ c ∈ cur, sep c = false) →
      IsSplit sep (cur.reverse ++ s) (splitScan sep false cur s) := by
  intro n
  induction n with
  | zero =>
    intro s cur hn hcur
    have : s = [] := List.length_eq_zero.1 (Nat.le_zero.1 hn)
    subst this
    simp only [splitScan, List.append_nil]
    exact IsSplit.last _ (by simpa using hcur)
  | succ n ih =>
    intro s cur hn hcur
    cases s with
    | nil =>
      simp only [splitScan, List.append_nil]
      exact IsSplit.last _ (by simpa using hcur)
    | cons c cs =>
      have hlen : cs.length ≤ n := by simpa using hn
      by_cases hc : sep c = true
      · obtain ⟨run, rest, hs, hrun, hmax, heq⟩ := splitScan_inRun sep cs
        have hrest : rest.length ≤ n := by
          have : cs.length = run.length + rest.length := by rw [hs]; simp
          omega
        have hsplit := ih rest [] hrest (by simp)
        simp only [List.reverse_nil, List.nil_append] at hsplit
        have hgoal : cur.reverse ++ c :: cs = cur.reverse ++ (c :: run) ++ rest := by
          simp [hs]
        rw [hgoal]
        simp only [splitScan, hc, if_true, Bool.false_eq_true, if_false, heq]
        refine IsSplit.cons _ _ _ _ (by simpa using hcur) (by simp) ?_ hmax hsplit
        intro d hd
        rcases List.mem_cons.1 hd with rfl | hd
        · exact hc
        · exact hrun d hd
      · have hc' : sep c = false := by simpa using hc
        have hcur' : ∀ d ∈ c :: cur, sep d = false := by
          intro d hd
          rcases List.mem_cons.1 hd with rfl | hd
          · exact hc'
          · exact hcur d hd
        have := ih cs (c :: cur) hlen hcur'
        simpa [splitScan, hc'] using this

theorem Split_isSplit (sep : Char → Bool) (s : Str) : IsSplit sep s (Split sep s) := by
  simpa [Split] using splitScan_isSplit sep s.length s [] (Nat.le_refl _) (by simp)

theorem span_unique (P : Char → Bool) (a : Str) :
    ∀ (b r1 r2 : Str), (∀ c ∈ a, P c = true) → (∀ c ∈ b, P c = true) →
      (∀ c, r1.head? = some c → P c = false) → (∀ c, r2.head? = some c → P c = false) →
      a ++ r1 = b ++ r2 → a = b ∧ r1 = r2 := by
  induction a with
  | nil =>
    intro b r1 r2 _ hb h1 _ he
    cases b with
    | nil => exact ⟨rfl, he⟩
    | cons d b1 =>
      simp only [List.nil_append] at he
      subst he
      have h1d := h1 d (by simp)
      have hbd := hb d (List.mem_cons_self _ _)
      rw [h1d] at hbd
      cases hbd
  | cons c a1 ih =>
    intro b r1 r2 ha hb h1 h2 he
    cases b with
    | nil =>
      simp only [List.nil_append] at he
      subst he
      have h2c := h2 c (by simp)
      have hac := ha c (List.mem_cons_self _ _)
      rw [h2c] at hac
      cases hac
    | cons d b1 =>
      simp only [List.cons_append, List.cons.injEq] at he
      obtain ⟨hcd, hrest⟩ := he
      obtain ⟨hab, hr⟩ := ih b1 r1 r2 (fun x hx => ha x (List.mem_cons_of_mem _ hx))
        (fun x hx => hb x (List.mem_cons_of_mem _ hx)) h1 h2 hrest
      exact ⟨by rw [hcd, hab], hr⟩

theorem split_decomposition_unique (sep : Char → Bool) (p run rest p1 run1 rest1 : Str)
    (hp : ∀ c ∈ p, sep c = false) (hne : run ≠ []) (hrun : ∀ c ∈ run, sep c = true)
    (hmax : ∀ c, rest.head? = some c → sep c = false)
    (hp1 : ∀ c ∈ p1, sep c = false) (hne1 : run1 ≠ []) (hrun1 : ∀ c ∈ run1, sep c = true)
    (hmax1 : ∀ c, rest1.head? = some c → sep c = false)
    (he : p ++ run ++ rest = p1 ++ run1 ++ rest1) : p = p1 ∧ rest = rest1 := by
  have hhead : ∀ (r t : Str), r ≠ [] → (∀ c ∈ r, sep c = true) →
      ∀ c, (r ++ t).head? = some c → (!sep c) = false := by
    intro r t hr hall c hc
    cases r with
    | nil => exact absurd rfl hr
    | cons d r1 =>
      simp only [List.cons_append, List.head?_cons, Option.some.injEq] at hc
      subst hc
      simp [hall d (List.mem_cons_self _ _)]
  rw [List.append_assoc, List.append_assoc] at he
  obtain ⟨h1, h2⟩ := span_unique (fun c => !sep c) p p1 (run ++ rest) (run1 ++ rest1)
    (fun c hc => by simp [hp c hc]) (fun c hc => by simp [hp1 c hc])
    (hhead run rest hne hrun) (hhead run1 rest1 hne1 hrun1) he
  obtain ⟨_, h4⟩ := span_unique sep run run1 rest rest1 hrun hrun1 hmax hmax1 h2
  exact ⟨h1, h4⟩

theorem IsSplit_unique (sep : Char → Bool) (s : Str) (ps : List Str)
    (h1 : IsSplit sep s ps) : ∀ qs, IsSplit sep s qs → ps = qs := by
  induction h1 with
  | last p hp =>
    intro qs h2
    generalize hs : p = s at h2
    cases h2 with
    | last q hq => rfl
    | cons p1 run1 rest1 pieces1 hp1 hne1 hrun1 hmax1 h =>
      exfalso
      cases run1 with
      | nil => exact hne1 rfl
      | cons d r =>
        have hd : d ∈ p := by rw [hs]; simp
        have := hp d hd
        rw [hrun1 d (List.mem_cons_self _ _)] at this
        cases this
  | cons p run rest pieces hp hne hrun hmax _ ih =>
    intro qs h2
    generalize hs : p ++ run ++ rest = s at h2
    cases h2 with
    | last q hq =>
      exfalso
      cases run with
      | nil => exact hne rfl
      | cons d r =>
        have hd : d ∈ p ++ d :: r ++ rest := by simp
        rw [hs] at hd
        have := hq d hd
        rw [hrun d (List.mem_cons_self _ _)] at this
        cases this
    | cons p1 run1 rest1 pieces1 hp1 hne1 hrun1 hmax1 h =>
      obtain ⟨hpp, hrr⟩ := split_decomposition_unique sep p run rest p1 run1 rest1
        hp hne hrun hmax hp1 hne1 hrun1 hmax1 hs
      subst hpp
      subst hrr
      rw [ih pieces1 h]

theorem isSep_iff (c : Char) :
    isSep c = true ↔ c ∈ [',', ';', ':', '\t', '\n', '\x0c', '\r', ' '] := by
  simp [isSep, isPerlSpace, or_assoc]

/-- C1 (as amended): the verbatim patterns built by `newProject` are exactly the pieces
of the `verbatim` value before, between and after the maximal runs of comma, semicolon,
colon, tab, newline, form feed, carriage return and space; a value without such a byte
is the single pattern; an absent or empty value gives no pattern. -/
theorem verbatimOf_spec (fields : Fields) :
    (∀ c, isSep c = true ↔ c ∈ [',', ';', ':', '\t', '\n', '\x0c', '\r', ' ']) ∧
    (∀ val, Fields.lookup fields "verbatim".toList = some val → val ≠ [] →
      ∀ pieces, IsSplit isSep val pieces ↔
        pieces = verbatimOf (Fields.delete fields "description".toList)) ∧
    (∀ val, Fields.lookup fields "verbatim".toList = some val → val ≠ [] →
      (∀ c ∈ val, isSep c = false) →
      verbatimOf (Fields.delete fields "description".toList) = [val]) ∧
    (Fields.lookup fields "verbatim".toList = none ∨
        Fields.lookup fields "verbatim".toList = some [] →
      verbatimOf (Fields.delete fields "description".toList) = []) := by
  have hne : "verbatim".toList ≠ "description".toList := by decide
  have hl := Fields.lookup_delete_ne fields "description".toList "verbatim".toList hne
  refine ⟨isSep_iff, ?_, ?_, ?_⟩
  · intro val hval hnil
    unfold verbatimOf Fields.get
    rw [hl, hval]
    simp only [ne_eq, hnil, not_false_eq_true, if_true, Option.getD_some]
    intro pieces
    constructor
    · intro h
      exact IsSplit_unique isSep val pieces h _ (Split_isSplit isSep val)
    · intro h
      rw [h]
      exact Split_isSplit isSep val
  · intro val hval hnil hno
    unfold verbatimOf Fields.get
    rw [hl, hval]
    simp only [ne_eq, hnil, not_false_eq_true, if_true, Option.getD_some, Split]
    simpa using splitScan_noSep isSep val false [] hno
  · intro h
    unfold verbatimOf
    rw [hl]
    rcases h with h | h
    · rw [h]
    · rw [h]; simp

theorem verbatimOf_spec_witness :
    IsSplit isSep "*.png, data".toList ["*.png".toList, "data".toList] :=
  ((verbatimOf_spec [("verbatim".toList, "*.png, data".toList)]).2.1 _
    (by decide) (by decide) _).2 (by decide)

/-- C1 (as stated) fails: the value `a:b` holds no comma, semicolon or white space, yet
`newProject` builds the two patterns `a` and `b` from it, not the single pattern `a:b`. -/
theorem verbatimOf_colon_counterexample :
    (∀ c ∈ "a:b".toList, specSep c = false) ∧
    verbatimOf (Fields.delete [("verbatim".toList, "a:b".toList)] "description".toList)
      = ["a".toList, "b".toList] ∧
    verbatimOf (Fields.delete [("verbatim".toList, "a:b".toList)] "description".toList)
      ≠ ["a:b".toList] := by
  decide

/-! ## `isVerbatim` -/

theorem isVerbatim_eq_true (env : Env) (f : FileInfo) (verbatim : List Str) :
    isVerbatim env f verbatim = true ↔ ∃ v ∈ verbatim, env.Match v f.Name = .ok true := by
  induction verbatim with
  | nil => simp [isVerbatim]
  | cons v rest ih =>
    simp only [isVerbatim, List.mem_cons, exists_eq_or_imp]
    cases hm : env.Match v f.Name with
    | error e => simp [ih]
    | ok b =>
      cases b
      · simp [ih]
      · simp [ih]

/-- C6: `isVerbatim` is true exactly when some pattern of the list matches the base name
(`filepath.Match` answers `true` without error); a pattern on which `filepath.Match`
reports an error counts as a non-match; the answer is the same for every permutation of
the list and is false for the empty list. -/
theorem isVerbatim_spec (env : Env) (f : FileInfo) (verbatim : List Str) :
    (isVerbatim env f verbatim = true ↔
      ∃ v ∈ verbatim, env.Match v f.Name = .ok true) ∧
    (∀ v e, env.Match v f.Name = .error e →
      isVerbatim env f (v :: verbatim) = isVerbatim env f verbatim) ∧
    (∀ verbatim1, verbatim.Perm verbatim1 →
      isVerbatim env f verbatim1 = isVerbatim env f verbatim) ∧
    isVerbatim env f [] = false := by
  refine ⟨isVerbatim_eq_true env f verbatim, ?_, ?_, rfl⟩
  · intro v e he
    simp [isVerbatim, he]
  · intro verbatim1 hperm
    rw [Bool.eq_iff_iff, isVerbatim_eq_true, isVerbatim_eq_true]
    constructor
    · rintro ⟨v, hv, hm⟩
      exact ⟨v, hperm.mem_iff.2 hv, hm⟩
    · rintro ⟨v, hv, hm⟩
      exact ⟨v, hperm.mem_iff.1 hv, hm⟩

theorem isVerbatim_spec_witness :
    isVerbatim sampleEnv ⟨"icon.png".toList, false, 0o644⟩
        ["*.png".toList, "[".toList, "data".toList] = true ∧
    isVerbatim sampleEnv ⟨"icon.png".toList, false, 0o644⟩
        ["data".toList, "[".toList, "*.png".toList] = true ∧
    isVerbatim sampleEnv ⟨"icon.png".toList, false, 0o644⟩
        ("[".toList :: ["data".toList]) = false :=
  ⟨(isVerbatim_spec sampleEnv ⟨"icon.png".toList, false, 0o644⟩
      ["*.png".toList, "[".toList, "data".toList]).1.2
      ⟨"*.png".toList, by decide, rfl⟩,
   ((isVerbatim_spec sampleEnv ⟨"icon.png".toList, false, 0o644⟩
      ["*.png".toList, "[".toList, "data".toList]).2.2.1
      ["data".toList, "[".toList, "*.png".toList] (by decide)).trans (by decide),
   ((isVerbatim_spec sampleEnv ⟨"icon.png".toList, false, 0o644⟩
      ["data".toList]).2.1 "[".toList "syntax error in pattern" rfl).trans
      (by decide)⟩

/-! ## Missing name -/

/-- C3: when the `name` field normalizes to the empty string, `newProject` ends with the
fatal error `no [name] parameter defined` and an empty trace (no directory created, no
file written, nothing rendered); a mapping without `name` is such a case whenever
`Normalize` maps the empty string to itself. -/
theorem newProject_no_name (env : Env) (os : OS) (repo : URL) (tree : Node)
    (fields : Fields) :
    (env.Normalize (Fields.get fields "name".toList) = [] →
      newProject env os repo tree fields
        = ([], .fatal (errorsNew "no [name] parameter defined"))) ∧
    (Fields.lookup fields "name".toList = none → env.Normalize [] = [] →
      newProject env os repo tree fields
        = ([], .fatal (errorsNew "no [name] parameter defined"))) := by
  have hne : "name".toList ≠ "description".toList := by decide
  have hg := Fields.get_delete_ne fields "description".toList "name".toList hne
  have key : env.Normalize (Fields.get fields "name".toList) = [] →
      newProject env os repo tree fields
        = ([], .fatal (errorsNew "no [name] parameter defined")) := by
    intro h
    unfold newProject
    simp only [hg, h, if_true, check]
  refine ⟨key, ?_⟩
  intro hnone hnorm
  apply key
  unfold Fields.get
  rw [hnone]
  exact hnorm

theorem newProject_no_name_witness :
    newProject sampleEnv (sampleOS scenarioFiles) ⟨"file".toList, "/t".toList⟩ scenarioTree
        [("owner".toList, "alice".toList)]
      = ([], .fatal (errorsNew "no [name] parameter defined")) :=
  (newProject_no_name sampleEnv (sampleOS scenarioFiles) ⟨"file".toList, "/t".toList⟩
    scenarioTree [("owner".toList, "alice".toList)]).2 (by decide) (by decide)

/-! ## `filepath.Walk` as a run over the list of visits -/

theorem runVisits_cons (fn : WalkFunc) (v : Visit) (vs : List Visit) (tr : Trace) :
    runVisits fn (v :: vs) tr
      = match fn v.path v.info v.err tr with
        | (tr1, .ret none) => runVisits fn vs tr1
        | r => r := rfl

theorem runVisits_single (fn : WalkFunc) (v : Visit) (tr : Trace) :
    runVisits fn [v] tr = fn v.path v.info v.err tr := by
  rw [runVisits_cons]
  split
  · next tr1 h => rw [h]; rfl
  · rfl

theorem runVisits_append (fn : WalkFunc) (a b : List Visit) :
    ∀ tr, runVisits fn (a ++ b) tr
      = match runVisits fn a tr with
        | (tr1, .ret none) => runVisits fn b tr1
        | r => r := by
  induction a with
  | nil => intro tr; rfl
  | cons v vs ih =>
    intro tr
    rw [List.cons_append, runVisits_cons, runVisits_cons]
    rcases hr : fn v.path v.info v.err tr with ⟨tr1, r⟩
    cases r with
    | ret e =>
      cases e with
      | none => exact ih tr1
      | some e => rfl
    | fatal e => rfl
    | panic p => rfl

theorem runVisits_noSentinel (fn : WalkFunc) (h : NoSentinel fn) (vs : List Visit) :
    ∀ tr, (runVisits fn vs tr).2 ≠ .ret (some .SkipDir) ∧
      (runVisits fn vs tr).2 ≠ .ret (some .SkipAll) := by
  induction vs with
  | nil => intro tr; simp [runVisits]
  | cons v vs ih =>
    intro tr
    rw [runVisits_cons]
    have hv := h v.path v.info v.err tr
    rcases hr : fn v.path v.info v.err tr with ⟨tr1, r⟩
    rw [hr] at hv
    cases r with
    | ret e =>
      cases e with
      | none => exact ih tr1
      | some e => exact hv
    | fatal e => exact hv
    | panic p => exact hv

mutual
theorem walk_eq_runVisits (fn : WalkFunc) (h : NoSentinel fn) (path : Str) :
    ∀ (node : Node) (tr : Trace), walk fn path node tr = runVisits fn (visits path node) tr
  | .file name mode, tr => by
    rw [visits, runVisits_single]; rfl
  | .lockedDir name mode err, tr => by
    rw [visits, runVisits_single]; rfl
  | .gone name err, tr => by
    rw [visits, runVisits_single]; rfl
  | .dir name mode kids, tr => by
    rw [visits, runVisits_cons, walk]
    rcases hr : fn path (some ⟨name, true, mode⟩) none tr with ⟨tr1, r⟩
    cases r with
    | ret e =>
      cases e with
      | none => exact walkNames_eq_runVisits fn h path kids tr1
      | some e => rfl
    | fatal e => rfl
    | panic p => rfl
theorem walkNames_eq_runVisits (fn : WalkFunc) (h : NoSentinel fn) (path : Str) :
    ∀ (kids : NodeList) (tr : Trace),
      walkNames fn path kids tr = runVisits fn (visitsNames path kids) tr
  | .nil, tr => by rw [visitsNames, walkNames]; rfl
  | .cons k ks, tr => by
    rw [visitsNames, runVisits_append]
    have hk := walk_eq_runVisits fn h (Join path k.name) k tr
    have hno := runVisits_noSentinel fn h (visits (Join path k.name) k) tr
    rw [← hk] at hno ⊢
    cases k with
    | gone name err =>
      rw [walkNames]
      simp only [walk, Node.name] at hno ⊢
      rcases hr : fn (Join path name) none (some (.other err)) tr with ⟨tr1, r⟩
      rw [hr] at hno
      cases r with
      | ret e =>
        cases e with
        | none => exact walkNames_eq_runVisits fn h path ks tr1
        | some e =>
          have : e ≠ .SkipDir := fun he => hno.1 (by rw [he])
          simp [this]
      | fatal e => rfl
      | panic p => rfl
    | file name mode =>
      rw [walkNames]
      simp only [Node.name] at hno ⊢
      rcases hr : walk fn (Join path name) (.file name mode) tr with ⟨tr1, r⟩
      cases r with
      | ret e =>
        cases e with
        | none => exact walkNames_eq_runVisits fn h path ks tr1
        | some e => rfl
      | fatal e => rfl
      | panic p => rfl
    | dir name mode kids =>
      rw [walkNames]
      simp only [Node.name] at hno ⊢
      rcases hr : walk fn (Join path name) (.dir name mode kids) tr with ⟨tr1, r⟩
      rw [hr] at hno
      cases r with
      | ret e =>
        cases e with
        | none => exact walkNames_eq_runVisits fn h path ks tr1
        | some e =>
          have : e ≠ .SkipDir := fun he => hno.1 (by rw [he])
          simp [this]
      | fatal e => rfl
      | panic p => rfl
    | lockedDir name mode err =>
      rw [walkNames]
      simp only [Node.name] at hno ⊢
      rcases hr : walk fn (Join path name) (.lockedDir name mode err) tr with ⟨tr1, r⟩
      rw [hr] at hno
      cases r with
      | ret e =>
        cases e with
        | none => exact walkNames_eq_runVisits fn h path ks tr1
        | some e =>
          have : e ≠ .SkipDir := fun he => hno.1 (by rw [he])
          simp [this]
      | fatal e => rfl
      | panic p => rfl
end

theorem Walk_eq_runVisits (fn : WalkFunc) (h : NoSentinel fn) (root : Str) (node : Node)
    (tr : Trace) : Walk fn root node tr = runVisits fn (visits root node) tr := by
  unfold Walk
  have hno := runVisits_noSentinel fn h (visits root node) tr
  rw [walk_eq_runVisits fn h root node tr]
  rcases hr : runVisits fn (visits root node) tr with ⟨tr1, r⟩
  rw [hr] at hno
  cases r with
  | ret e =>
    cases e with
    | none => rfl
    | some e =>
      have h1 : e ≠ .SkipDir := fun he => hno.1 (by rw [he])
      have h2 : e ≠ .SkipAll := fun he => hno.2 (by rw [he])
      simp [h1, h2]
  | fatal e => rfl
  | panic p => rfl

/-! ## One call of the walk function of `newProject` -/

theorem transformFilename_eq (env : Env) (filename : Str) (fields : Fields) (tr : Trace) :
    transformFilename env filename fields tr
      = (tr ++ [.render filename fields], env.Render filename fields) := by
  unfold transformFilename callRender
  cases env.Render filename fields <;> rfl

theorem writesOf_append (a b : Trace) : writesOf (a ++ b) = writesOf a ++ writesOf b := by
  simp [writesOf]

theorem walkFn_none (env : Env) (os : OS) (target : Str) (fields : Fields)
    (verbatim : List Str) (prefixLen : Nat) (path : Str) (err : Option GoError)
    (tr : Trace) :
    walkFn env os target fields verbatim prefixLen path none err tr
      = (tr, .panic .nilDereference) := rfl

theorem walkFn_some (env : Env) (os : OS) (target : Str) (fields : Fields)
    (verbatim : List Str) (prefixLen : Nat) (path : Str) (f : FileInfo)
    (err : Option GoError) (tr : Trace) :
    walkFn env os target fields verbatim prefixLen path (some f) err tr
      = if (f.IsDir || decide (f.Name = "default.properties".toList)) = true then
          (tr, .ret none)
        else if path.length < prefixLen then (tr, .panic .sliceBounds)
        else
          match env.Render (target ++ path.drop prefixLen) fields with
          | .error e =>
            (tr ++ [.render (target ++ path.drop prefixLen) fields], .ret (some (.other e)))
          | .ok dest =>
            match os.ReadFile path with
            | .error e =>
              (prepared os (tr ++ [.render (target ++ path.drop prefixLen) fields]) dest,
                .ret (some (.other e)))
            | .ok content =>
              if isVerbatim env f verbatim = true then
                (prepared os (tr ++ [.render (target ++ path.drop prefixLen) fields]) dest
                  ++ [.writeFile dest content (Perm f.Mode)
                    (os.WriteFile
                      (prepared os (tr ++ [.render (target ++ path.drop prefixLen) fields])
                        dest) dest content (Perm f.Mode))],
                 .ret ((os.WriteFile
                      (prepared os (tr ++ [.render (target ++ path.drop prefixLen) fields])
                        dest) dest content (Perm f.Mode)).map .other))
              else
                match env.Render content fields with
                | .error e =>
                  (prepared os (tr ++ [.render (target ++ path.drop prefixLen) fields]) dest
                    ++ [.render content fields], .ret (some (.other e)))
                | .ok data =>
                  (prepared os (tr ++ [.render (target ++ path.drop prefixLen) fields]) dest
                    ++ [.render content fields]
                    ++ [.writeFile dest data (Perm f.Mode)
                      (os.WriteFile
                        (prepared os (tr ++ [.render (target ++ path.drop prefixLen) fields])
                          dest ++ [.render content fields]) dest data (Perm f.Mode))],
                   .ret ((os.WriteFile
                        (prepared os (tr ++ [.render (target ++ path.drop prefixLen) fields])
                          dest ++ [.render content fields]) dest data (Perm f.Mode)).map
                      .other)) := by
  unfold walkFn
  simp only [transformFilename_eq, callRender, prepared]
  by_cases h1 : (f.IsDir || decide (f.Name = "default.properties".toList)) = true
  · rw [if_pos h1, if_pos h1]
  · rw [if_neg h1, if_neg h1]
    by_cases h2 : path.length < prefixLen
    · rw [if_pos h2, if_pos h2]
    · rw [if_neg h2, if_neg h2]
      cases env.Render (target ++ path.drop prefixLen) fields with
      | error e => rfl
      | ok dest =>
        cases os.ReadFile path with
        | error e => rfl
        | ok content =>
          by_cases h3 : isVerbatim env f verbatim = true
          · simp [h3]
          · simp only [h3]
            cases env.Render content fields with
            | error e => simp
            | ok data => simp

theorem writesOf_prepared (os : OS) (tr1 : Trace) (dest : Str) :
    writesOf (prepared os tr1 dest) = writesOf tr1 := by
  unfold prepared
  split_ifs <;> simp [writesOf]

theorem writesOf_render (tr : Trace) (src : Str) (m : Fields) :
    writesOf (tr ++ [.render src m]) = writesOf tr := by
  simp [writesOf]

theorem writesOf_write_none (tr : Trace) (p d : Str) (perm : Nat) :
    writesOf (tr ++ [.writeFile p d perm none])
      = writesOf tr ++ [.writeFile p d perm none] := by
  simp [writesOf]

theorem writesOf_write_some (tr : Trace) (p d : Str) (perm : Nat) (e : ErrMsg) :
    writesOf (tr ++ [.writeFile p d perm (some e)]) = writesOf tr := by
  simp [writesOf]

theorem ret_map_other_ne (res : Option ErrMsg) :
    Result.ret (res.map GoError.other) ≠ .ret (some .SkipDir) ∧
      Result.ret (res.map GoError.other) ≠ .ret (some .SkipAll) := by
  cases res <;> simp

theorem walkFn_noSentinel (env : Env) (os : OS) (target : Str) (fields : Fields)
    (verbatim : List Str) (prefixLen : Nat) :
    NoSentinel (walkFn env os target fields verbatim prefixLen) := by
  intro path f err tr
  cases f with
  | none => rw [walkFn_none]; simp
  | some f =>
    rw [walkFn_some]
    by_cases h1 : (f.IsDir || decide (f.Name = "default.properties".toList)) = true
    · rw [if_pos h1]; simp
    · rw [if_neg h1]
      by_cases h2 : path.length < prefixLen
      · rw [if_pos h2]; simp
      · rw [if_neg h2]
        cases env.Render (target ++ path.drop prefixLen) fields with
        | error e => simp
        | ok dest =>
          cases os.ReadFile path with
          | error e => simp
          | ok content =>
            simp only
            by_cases h3 : isVerbatim env f verbatim = true
            · rw [if_pos h3]
              exact ret_map_other_ne _
            · rw [if_neg h3]
              cases env.Render content fields with
              | error e => simp
              | ok data => exact ret_map_other_ne _

/-- One call of the walk function either skips the visit, or materializes it by one
successful write, or ends the walk without a successful write. -/
theorem walkFn_visit (env : Env) (os : OS) (target : Str) (fields : Fields)
    (verbatim : List Str) (prefixLen : Nat) (v : Visit) (tr : Trace) :
    (v.kept = false ∧
      walkFn env os target fields verbatim prefixLen v.path v.info v.err tr
        = (tr, .ret none)) ∨
    (v.kept = true ∧
      (walkFn env os target fields verbatim prefixLen v.path v.info v.err tr).2
        = .ret none ∧
      ∃ w, Materializes env os target fields verbatim prefixLen v w ∧
        writesOf (walkFn env os target fields verbatim prefixLen v.path v.info v.err tr).1
          = writesOf tr ++ [w]) ∨
    ((walkFn env os target fields verbatim prefixLen v.path v.info v.err tr).2
        ≠ .ret none ∧
      writesOf (walkFn env os target fields verbatim prefixLen v.path v.info v.err tr).1
        = writesOf tr) := by
  obtain ⟨path, info, err⟩ := v
  cases info with
  | none =>
    right; right
    simp [walkFn_none]
  | some f =>
    simp only [walkFn_some]
    by_cases h1 : (f.IsDir || decide (f.Name = "default.properties".toList)) = true
    · left
      rw [if_pos h1]
      refine ⟨?_, rfl⟩
      simp only [Visit.kept]
      rw [h1]; rfl
    · rw [if_neg h1]
      have hkept : Visit.kept ⟨path, some f, err⟩ = true := by
        simp only [Visit.kept]
        rw [Bool.not_eq_true] at h1
        rw [h1]; rfl
      right
      by_cases h2 : path.length < prefixLen
      · right
        rw [if_pos h2]
        simp
      · rw [if_neg h2]
        cases hR : env.Render (target ++ path.drop prefixLen) fields with
        | error e =>
          right
          simp [writesOf_render]
        | ok dest =>
          cases hF : os.ReadFile path with
          | error e =>
            right
            simp [writesOf_prepared, writesOf_render]
          | ok content =>
            simp only
            by_cases h3 : isVerbatim env f verbatim = true
            · rw [if_pos h3]
              cases hW : os.WriteFile
                  (prepared os (tr ++ [.render (target ++ path.drop prefixLen) fields])
                    dest) dest content (Perm f.Mode) with
              | some e =>
                right
                refine ⟨by simp, ?_⟩
                rw [writesOf_write_some, writesOf_prepared, writesOf_render]
              | none =>
                left
                refine ⟨hkept, rfl, _, ⟨f, dest, content, content, rfl, hR, hF, ?_, rfl⟩, ?_⟩
                · rw [if_pos h3]
                · rw [writesOf_write_none, writesOf_prepared, writesOf_render]
            · rw [if_neg h3]
              cases hC : env.Render content fields with
              | error e =>
                right
                refine ⟨by simp, ?_⟩
                rw [writesOf_render, writesOf_prepared, writesOf_render]
              | ok data =>
                simp only
                cases hW : os.WriteFile
                    (prepared os (tr ++ [.render (target ++ path.drop prefixLen) fields])
                      dest ++ [.render content fields]) dest data (Perm f.Mode) with
                | some e =>
                  right
                  refine ⟨by simp, ?_⟩
                  rw [writesOf_write_some, writesOf_render, writesOf_prepared,
                    writesOf_render]
                | none =>
                  left
                  refine ⟨hkept, rfl, _, ⟨f, dest, content, data, rfl, hR, hF, ?_, rfl⟩, ?_⟩
                  · rw [if_neg h3]; exact hC
                  · rw [writesOf_write_none, writesOf_render, writesOf_prepared,
                      writesOf_render]

theorem rendersWith_prepared (os : OS) (m : Fields) (tr1 : Trace) (dest : Str)
    (h : RendersWith m tr1) : RendersWith m (prepared os tr1 dest) := by
  intro src m1 hmem
  unfold prepared at hmem
  split_ifs at hmem
  · simp at hmem
    exact h src m1 hmem
  · simp at hmem
    exact h src m1 hmem

theorem rendersWith_snoc (m : Fields) (tr : Trace) (e : Event) (h : RendersWith m tr)
    (he : ∀ src m1, e = .render src m1 → m1 = m) : RendersWith m (tr ++ [e]) := by
  intro src m1 hmem
  rcases List.mem_append.1 hmem with h1 | h1
  · exact h src m1 h1
  · simp at h1
    exact he src m1 h1.symm

theorem walkFn_rendersWith (env : Env) (os : OS) (target : Str) (fields : Fields)
    (verbatim : List Str) (prefixLen : Nat) (path : Str) (f : Option FileInfo)
    (err : Option GoError) (tr : Trace) (h : RendersWith fields tr) :
    RendersWith fields
      (walkFn env os target fields verbatim prefixLen path f err tr).1 := by
  cases f with
  | none => rw [walkFn_none]; exact h
  | some f =>
    rw [walkFn_some]
    have h1 : RendersWith fields
        (tr ++ [.render (target ++ path.drop prefixLen) fields]) :=
      rendersWith_snoc _ _ _ h (by intro src m1 he; cases he; rfl)
    by_cases c1 : (f.IsDir || decide (f.Name = "default.properties".toList)) = true
    · rw [if_pos c1]; exact h
    · rw [if_neg c1]
      by_cases c2 : path.length < prefixLen
      · rw [if_pos c2]; exact h
      · rw [if_neg c2]
        cases env.Render (target ++ path.drop prefixLen) fields with
        | error e => exact h1
        | ok dest =>
          have h2 := rendersWith_prepared os fields _ dest h1
          cases os.ReadFile path with
          | error e => exact h2
          | ok content =>
            simp only
            by_cases c3 : isVerbatim env f verbatim = true
            · rw [if_pos c3]
              exact rendersWith_snoc _ _ _ h2 (by intro src m1 he; cases he)
            · rw [if_neg c3]
              have h3 : RendersWith fields
                  (prepared os (tr ++ [.render (target ++ path.drop prefixLen) fields])
                    dest ++ [.render content fields]) :=
                rendersWith_snoc _ _ _ h2 (by intro src m1 he; cases he; rfl)
              cases env.Render content fields with
              | error e => exact h3
              | ok data =>
                exact rendersWith_snoc _ _ _ h3 (by intro src m1 he; cases he)

/-! ## Whole runs -/

theorem runVisits_cons_continue (fn : WalkFunc) (v : Visit) (vs : List Visit) (tr : Trace)
    (h : (fn v.path v.info v.err tr).2 = .ret none) :
    runVisits fn (v :: vs) tr = runVisits fn vs (fn v.path v.info v.err tr).1 := by
  rw [runVisits_cons]
  rcases hr : fn v.path v.info v.err tr with ⟨tr1, r⟩
  rw [hr] at h
  simp only at h
  subst h
  rfl

theorem runVisits_cons_stop (fn : WalkFunc) (v : Visit) (vs : List Visit) (tr : Trace)
    (h : (fn v.path v.info v.err tr).2 ≠ .ret none) :
    runVisits fn (v :: vs) tr = fn v.path v.info v.err tr := by
  rw [runVisits_cons]
  rcases hr : fn v.path v.info v.err tr with ⟨tr1, r⟩
  rw [hr] at h
  cases r with
  | ret e =>
    cases e with
    | none => exact absurd rfl h
    | some e => rfl
  | fatal e => rfl
  | panic p => rfl

/-- The successful writes of a run over a list of visits are, in order, the
materializations of the first kept visits: of all of them if the run returns `nil`. -/
theorem runVisits_writes (env : Env) (os : OS) (target : Str) (fields : Fields)
    (verbatim : List Str) (prefixLen : Nat) (vs : List Visit) :
    ∀ tr, ∃ ws,
      writesOf (runVisits (walkFn env os target fields verbatim prefixLen) vs tr).1
        = writesOf tr ++ ws ∧
      ws.length ≤ (vs.filter Visit.kept).length ∧
      List.Forall₂ (Materializes env os target fields verbatim prefixLen)
        ((vs.filter Visit.kept).take ws.length) ws ∧
      ((runVisits (walkFn env os target fields verbatim prefixLen) vs tr).2 = .ret none →
        ws.length = (vs.filter Visit.kept).length) := by
  induction vs with
  | nil =>
    intro tr
    exact ⟨[], by simp [runVisits], by simp, by simp, by simp⟩
  | cons v vs ih =>
    intro tr
    rcases walkFn_visit env os target fields verbatim prefixLen v tr with
      ⟨hk, hr⟩ | ⟨hk, hr, w, hw, hws⟩ | ⟨hr, hws⟩
    · have h2 : (walkFn env os target fields verbatim prefixLen v.path v.info v.err tr).2
          = .ret none := by rw [hr]
      rw [runVisits_cons_continue _ _ _ _ h2, hr]
      have hf : (v :: vs).filter Visit.kept = vs.filter Visit.kept := by
        simp [List.filter_cons, hk]
      rw [hf]
      exact ih tr
    · rw [runVisits_cons_continue _ _ _ _ hr]
      obtain ⟨ws, h1, h2, h3, h4⟩ :=
        ih (walkFn env os target fields verbatim prefixLen v.path v.info v.err tr).1
      have hf : (v :: vs).filter Visit.kept = v :: vs.filter Visit.kept := by
        simp [List.filter_cons, hk]
      rw [hf]
      refine ⟨w :: ws, ?_, ?_, ?_, ?_⟩
      · rw [h1, hws]; simp
      · simpa using h2
      · simpa using List.Forall₂.cons hw h3
      · intro hret
        simpa using h4 hret
    · rw [runVisits_cons_stop _ _ _ _ hr]
      exact ⟨[], by simpa using hws, by simp, by simp, fun h => absurd h hr⟩

theorem runVisits_rendersWith (env : Env) (os : OS) (target : Str) (fields : Fields)
    (verbatim : List Str) (prefixLen : Nat) (vs : List Visit) :
    ∀ tr, RendersWith fields tr →
      RendersWith fields
        (runVisits (walkFn env os target fields verbatim prefixLen) vs tr).1 := by
  induction vs with
  | nil => intro tr h; exact h
  | cons v vs ih =>
    intro tr h
    have hv := walkFn_rendersWith env os target fields verbatim prefixLen
      v.path v.info v.err tr h
    by_cases hr : (walkFn env os target fields verbatim prefixLen v.path v.info v.err tr).2
        = .ret none
    · rw [runVisits_cons_continue _ _ _ _ hr]
      exact ih _ hv
    · rw [runVisits_cons_stop _ _ _ _ hr]
      exact hv

theorem newProject_of_no_target (env : Env) (os : OS) (repo : URL) (tree : Node)
    (fields : Fields) (h : targetOf env fields = []) :
    newProject env os repo tree fields
      = ([], .fatal (errorsNew "no [name] parameter defined")) := by
  unfold targetOf at h
  unfold newProject
  simp only [h, if_true, check]

theorem newProject_of_target (env : Env) (os : OS) (repo : URL) (tree : Node)
    (fields : Fields) (h : targetOf env fields ≠ []) :
    newProject env os repo tree fields
      = runVisits (newProjectFn env os repo fields) (visits (codebaseOf env repo) tree) [] := by
  unfold targetOf at h
  unfold newProject
  simp only [h, if_false]
  exact Walk_eq_runVisits _ (walkFn_noSentinel _ _ _ _ _ _) _ _ _

/-- The successful writes of `newProject` are, in order, the materializations of the
first kept visits of the walk: of all of them if `newProject` returns `nil`. -/
theorem newProject_writes (env : Env) (os : OS) (repo : URL) (tree : Node)
    (fields : Fields) :
    (writesOf (newProject env os repo tree fields).1).length
      ≤ (keptVisits env repo tree).length ∧
    List.Forall₂
      (Materializes env os (targetOf env fields) (renderFieldsOf fields)
        (patternsOf fields) (codebaseOf env repo).length)
      ((keptVisits env repo tree).take
        (writesOf (newProject env os repo tree fields).1).length)
      (writesOf (newProject env os repo tree fields).1) ∧
    ((newProject env os repo tree fields).2 = .ret none →
      (writesOf (newProject env os repo tree fields).1).length
        = (keptVisits env repo tree).length) := by
  by_cases h : targetOf env fields = []
  · rw [newProject_of_no_target env os repo tree fields h]
    refine ⟨by simp [writesOf], by simp [writesOf], ?_⟩
    intro hc
    cases hc
  · rw [newProject_of_target env os repo tree fields h]
    obtain ⟨ws, h1, h2, h3, h4⟩ :=
      runVisits_writes env os (targetOf env fields) (renderFieldsOf fields)
        (patternsOf fields) (codebaseOf env repo).length
        (visits (codebaseOf env repo) tree) []
    have h1' : writesOf (runVisits (newProjectFn env os repo fields)
        (visits (codebaseOf env repo) tree) []).1 = ws := by
      simpa [writesOf, newProjectFn] using h1
    rw [h1']
    exact ⟨h2, h3, h4⟩

/-! ## Traces only grow -/

theorem rendersOf_prepared (os : OS) (tr1 : Trace) (dest : Str) :
    rendersOf (prepared os tr1 dest) = rendersOf tr1 := by
  unfold prepared
  split_ifs <;> simp [rendersOf]

theorem rendersOf_render (tr : Trace) (src : Str) (m : Fields) :
    rendersOf (tr ++ [.render src m]) = rendersOf tr ++ [.render src m] := by
  simp [rendersOf]

theorem rendersOf_write (tr : Trace) (p d : Str) (perm : Nat) (res : Option ErrMsg) :
    rendersOf (tr ++ [.writeFile p d perm res]) = rendersOf tr := by
  simp [rendersOf]

theorem prepared_extends (os : OS) (tr1 : Trace) (dest : Str) :
    tr1 <+: prepared os tr1 dest := by
  unfold prepared
  split_ifs
  · exact ⟨_, by simp [List.append_assoc]; rfl⟩
  · exact ⟨_, rfl⟩

theorem walkFn_extends (env : Env) (os : OS) (target : Str) (fields : Fields)
    (verbatim : List Str) (prefixLen : Nat) (path : Str) (f : Option FileInfo)
    (err : Option GoError) (tr : Trace) :
    tr <+: (walkFn env os target fields verbatim prefixLen path f err tr).1 := by
  cases f with
  | none => rw [walkFn_none]
  | some f =>
    rw [walkFn_some]
    have h1 : tr <+: tr ++ [Event.render (target ++ path.drop prefixLen) fields] :=
      List.prefix_append _ _
    by_cases c1 : (f.IsDir || decide (f.Name = "default.properties".toList)) = true
    · rw [if_pos c1]
    · rw [if_neg c1]
      by_cases c2 : path.length < prefixLen
      · rw [if_pos c2]
      · rw [if_neg c2]
        cases env.Render (target ++ path.drop prefixLen) fields with
        | error e => exact h1
        | ok dest =>
          have h2 := h1.trans (prepared_extends os _ dest)
          cases os.ReadFile path with
          | error e => exact h2
          | ok content =>
            simp only
            by_cases c3 : isVerbatim env f verbatim = true
            · rw [if_pos c3]
              exact h2.trans (List.prefix_append _ _)
            · rw [if_neg c3]
              have h3 := h2.trans (List.prefix_append _ [Event.render content fields])
              cases env.Render content fields with
              | error e => exact h3
              | ok data => exact h3.trans (List.prefix_append _ _)

theorem runVisits_extends (env : Env) (os : OS) (target : Str) (fields : Fields)
    (verbatim : List Str) (prefixLen : Nat) (vs : List Visit) :
    ∀ tr, tr <+: (runVisits (walkFn env os target fields verbatim prefixLen) vs tr).1 := by
  induction vs with
  | nil => intro tr; exact List.prefix_refl _
  | cons v vs ih =>
    intro tr
    have hv := walkFn_extends env os target fields verbatim prefixLen v.path v.info v.err tr
    by_cases hr : (walkFn env os target fields verbatim prefixLen v.path v.info v.err tr).2
        = .ret none
    · rw [runVisits_cons_continue _ _ _ _ hr]
      exact hv.trans (ih _)
    · rw [runVisits_cons_stop _ _ _ _ hr]
      exact hv

theorem runVisits_append_extends (env : Env) (os : OS) (target : Str) (fields : Fields)
    (verbatim : List Str) (prefixLen : Nat) (a b : List Visit) (tr : Trace) :
    (runVisits (walkFn env os target fields verbatim prefixLen) a tr).1
      <+: (runVisits (walkFn env os target fields verbatim prefixLen) (a ++ b) tr).1 := by
  rw [runVisits_append]
  rcases hr : runVisits (walkFn env os target fields verbatim prefixLen) a tr with ⟨tr1, r⟩
  cases r with
  | ret e =>
    cases e with
    | none => exact runVisits_extends env os target fields verbatim prefixLen b tr1
    | some e => exact List.prefix_refl _
  | fatal e => exact List.prefix_refl _
  | panic p => exact List.prefix_refl _

theorem runVisits_snoc (fn : WalkFunc) (pre : List Visit) (v : Visit) (tr : Trace)
    (h : runVisits fn pre [] = (tr, .ret none)) :
    runVisits fn (pre ++ [v]) [] = fn v.path v.info v.err tr := by
  rw [runVisits_append, h]
  exact runVisits_single fn v tr

/-- One call of the walk function on a file whose base name matches a verbatim pattern,
once the file name is rendered and the content read: the content goes to
`ioutil.WriteFile` as read, and the renderer is called for the file name only. -/
theorem walkFn_verbatim (env : Env) (os : OS) (target : Str) (fields : Fields)
    (verbatim : List Str) (prefixLen : Nat) (path : Str) (f : FileInfo)
    (err : Option GoError) (tr : Trace) (dest content : Str)
    (hdir : f.IsDir = false) (hname : f.Name ≠ "default.properties".toList)
    (hverb : isVerbatim env f verbatim = true) (hlen : prefixLen ≤ path.length)
    (hR : env.Render (target ++ path.drop prefixLen) fields = .ok dest)
    (hF : os.ReadFile path = .ok content) :
    walkFn env os target fields verbatim prefixLen path (some f) err tr
      = (prepared os (tr ++ [.render (target ++ path.drop prefixLen) fields]) dest
          ++ [.writeFile dest content (Perm f.Mode)
            (os.WriteFile
              (prepared os (tr ++ [.render (target ++ path.drop prefixLen) fields]) dest)
              dest content (Perm f.Mode))],
         .ret ((os.WriteFile
              (prepared os (tr ++ [.render (target ++ path.drop prefixLen) fields]) dest)
              dest content (Perm f.Mode)).map .other)) := by
  rw [walkFn_some]
  have c1 : ¬ (f.IsDir || decide (f.Name = "default.properties".toList)) = true := by
    rw [hdir, Bool.false_or, decide_eq_true_eq]
    exact hname
  rw [if_neg c1, if_neg (Nat.not_lt.2 hlen), hR]
  simp only
  rw [hF]
  simp only
  rw [if_pos hverb]

theorem walkFn_verbatim_renders (env : Env) (os : OS) (target : Str) (fields : Fields)
    (verbatim : List Str) (prefixLen : Nat) (path : Str) (f : FileInfo)
    (err : Option GoError) (tr : Trace) (hverb : isVerbatim env f verbatim = true) :
    rendersOf (walkFn env os target fields verbatim prefixLen path (some f) err tr).1
        = rendersOf tr ∨
    rendersOf (walkFn env os target fields verbatim prefixLen path (some f) err tr).1
        = rendersOf tr ++ [.render (target ++ path.drop prefixLen) fields] := by
  rw [walkFn_some]
  by_cases c1 : (f.IsDir || decide (f.Name = "default.properties".toList)) = true
  · rw [if_pos c1]; exact Or.inl rfl
  · rw [if_neg c1]
    by_cases c2 : path.length < prefixLen
    · rw [if_pos c2]; exact Or.inl rfl
    · rw [if_neg c2]
      right
      cases env.Render (target ++ path.drop prefixLen) fields with
      | error e => exact rendersOf_render _ _ _
      | ok dest =>
        cases os.ReadFile path with
        | error e =>
          simp only
          rw [rendersOf_prepared, rendersOf_render]
        | ok content =>
          simp only
          rw [if_pos hverb]
          simp only
          rw [rendersOf_write, rendersOf_prepared, rendersOf_render]

/-! ## Claims on whole runs -/

/-- C2: for a source file whose base name matches a verbatim pattern the renderer is
called for the file name only, never for the content; once the walk reaches the file,
its name renders and its content is read, `ioutil.WriteFile` is called on the rendered
path with exactly the bytes read, whatever the renderer would answer on them; and the
successful writes of a run are, in order, those of the first kept visits, each verbatim
one carrying the bytes read from its source, unchanged, to the rendered path
`target ++ path[prefixLen:]`. -/
theorem newProject_verbatim_bytes (env : Env) (os : OS) (repo : URL) (tree : Node)
    (fields : Fields) :
    List.Forall₂
      (fun v w => ∀ f, v.info = some f → isVerbatim env f (patternsOf fields) = true →
        ∃ dest content,
          env.Render (targetOf env fields ++ v.path.drop (codebaseOf env repo).length)
            (renderFieldsOf fields) = .ok dest ∧
          os.ReadFile v.path = .ok content ∧
          w = .writeFile dest content (Perm f.Mode) none)
      ((keptVisits env repo tree).take
        (writesOf (newProject env os repo tree fields).1).length)
      (writesOf (newProject env os repo tree fields).1) ∧
    (∀ path f err tr, isVerbatim env f (patternsOf fields) = true →
      rendersOf (newProjectFn env os repo fields path (some f) err tr).1 = rendersOf tr ∨
      rendersOf (newProjectFn env os repo fields path (some f) err tr).1
        = rendersOf tr ++
          [.render (targetOf env fields ++ path.drop (codebaseOf env repo).length)
            (renderFieldsOf fields)]) ∧
    (∀ pre v post f tr dest content,
      targetOf env fields ≠ [] →
      visits (codebaseOf env repo) tree = pre ++ v :: post →
      runVisits (newProjectFn env os repo fields) pre [] = (tr, .ret none) →
      v.info = some f → f.IsDir = false → f.Name ≠ "default.properties".toList →
      isVerbatim env f (patternsOf fields) = true →
      (codebaseOf env repo).length ≤ v.path.length →
      env.Render (templatedPath env repo fields v) (renderFieldsOf fields) = .ok dest →
      os.ReadFile v.path = .ok content →
      (prepared os
          (tr ++ [.render (templatedPath env repo fields v) (renderFieldsOf fields)]) dest
        ++ [.writeFile dest content (Perm f.Mode)
          (os.WriteFile
            (prepared os
              (tr ++ [.render (templatedPath env repo fields v) (renderFieldsOf fields)])
              dest)
            dest content (Perm f.Mode))])
        <+: (newProject env os repo tree fields).1 ∧
      rendersOf
        (prepared os
            (tr ++ [.render (templatedPath env repo fields v) (renderFieldsOf fields)])
            dest
          ++ [.writeFile dest content (Perm f.Mode)
            (os.WriteFile
              (prepared os
                (tr ++ [.render (templatedPath env repo fields v) (renderFieldsOf fields)])
                dest)
              dest content (Perm f.Mode))])
        = rendersOf tr
            ++ [.render (templatedPath env repo fields v) (renderFieldsOf fields)]) := by
  refine ⟨?_, ?_, ?_⟩
  · refine List.Forall₂.imp ?_ (newProject_writes env os repo tree fields).2.1
    intro v w hM f hf hverb
    obtain ⟨f1, dest, content, data, hf1, hR, hF, hdata, hw⟩ := hM
    rw [hf] at hf1
    cases hf1
    rw [if_pos hverb] at hdata
    subst hdata
    exact ⟨dest, data, hR, hF, hw⟩
  · intro path f err tr hverb
    exact walkFn_verbatim_renders env os _ _ _ _ path f err tr hverb
  · intro pre v post f tr dest content htarget hvis hpre hinfo hdir hname hverb hlen hR hF
    have hcall := walkFn_verbatim env os (targetOf env fields) (renderFieldsOf fields)
      (patternsOf fields) (codebaseOf env repo).length v.path f v.err tr dest content
      hdir hname hverb hlen hR hF
    have hsnoc := runVisits_snoc (newProjectFn env os repo fields) pre v tr hpre
    rw [hinfo] at hsnoc
    have hrun : (runVisits (newProjectFn env os repo fields) (pre ++ [v]) []).1
        = prepared os
            (tr ++ [.render (templatedPath env repo fields v) (renderFieldsOf fields)])
            dest
          ++ [.writeFile dest content (Perm f.Mode)
            (os.WriteFile
              (prepared os
                (tr ++ [.render (templatedPath env repo fields v) (renderFieldsOf fields)])
                dest)
              dest content (Perm f.Mode))] := by
      rw [hsnoc]
      unfold newProjectFn
      rw [hcall]
      rfl
    refine ⟨?_, ?_⟩
    · rw [← hrun, newProject_of_target env os repo tree fields htarget, hvis]
      have happ : pre ++ v :: post = (pre ++ [v]) ++ post := by simp
      rw [happ]
      exact runVisits_append_extends env os _ _ _ _ (pre ++ [v]) post []
    · rw [rendersOf_write, rendersOf_prepared, rendersOf_render]

theorem newProject_verbatim_bytes_witness :
    sampleEnv.Render "owner=$owner".toList (renderFieldsOf verbatimFields)
      = .error "unclosed placeholder" ∧
    [Event.render "demo/$name$.conf".toList
        [("name".toList, "demo".toList), ("owner".toList, "alice".toList)],
      .print "creating directory, demo\n".toList,
      .mkdirAll "demo".toList 0o755 none,
      .print "generating demo/demo.conf\n".toList,
      .writeFile "demo/demo.conf".toList "owner=$owner".toList 0o644 none]
      <+: (newProject sampleEnv (sampleOS rawFiles) localRepo scenarioTree
            verbatimFields).1 :=
  ⟨by decide,
   ((newProject_verbatim_bytes sampleEnv (sampleOS rawFiles) localRepo scenarioTree
      verbatimFields).2.2
      [⟨"/t/src/main/g8".toList, some ⟨"g8".toList, true, 0o755⟩, none⟩]
      ⟨"/t/src/main/g8/$name$.conf".toList, some ⟨"$name$.conf".toList, false, 0o644⟩, none⟩
      [⟨"/t/src/main/g8/default.properties".toList,
        some ⟨"default.properties".toList, false, 0o644⟩, none⟩]
      ⟨"$name$.conf".toList, false, 0o644⟩ [] "demo/demo.conf".toList "owner=$owner".toList
      (by decide) (by decide) (by decide) rfl rfl (by decide) (by decide) (by decide)
      (by decide) (by decide)).1⟩

/-- C7 (as amended): directories and files named `default.properties` make the walk
function return `nil` with the trace unchanged; the successful writes of a run are, in
order, the materializations of the first kept visits (visits with file information, not
of a directory, not named `default.properties`), so nothing else is ever written; and in
a run that returns `nil` every kept visit is materialized. -/
theorem newProject_materialized (env : Env) (os : OS) (repo : URL) (tree : Node)
    (fields : Fields) :
    (∀ path f err tr, (f.IsDir = true ∨ f.Name = "default.properties".toList) →
      newProjectFn env os repo fields path (some f) err tr = (tr, .ret none)) ∧
    (∀ v, v ∈ keptVisits env repo tree ↔
      v ∈ visits (codebaseOf env repo) tree ∧
        ∃ f, v.info = some f ∧ f.IsDir = false ∧ f.Name ≠ "default.properties".toList) ∧
    List.Forall₂
      (Materializes env os (targetOf env fields) (renderFieldsOf fields)
        (patternsOf fields) (codebaseOf env repo).length)
      ((keptVisits env repo tree).take
        (writesOf (newProject env os repo tree fields).1).length)
      (writesOf (newProject env os repo tree fields).1) ∧
    ((newProject env os repo tree fields).2 = .ret none →
      (writesOf (newProject env os repo tree fields).1).length
        = (keptVisits env repo tree).length) := by
  refine ⟨?_, ?_, (newProject_writes env os repo tree fields).2.1,
    (newProject_writes env os repo tree fields).2.2⟩
  · intro path f err tr h
    unfold newProjectFn
    rw [walkFn_some, if_pos]
    rcases h with h | h
    · rw [h]; rfl
    · rw [Bool.or_eq_true]
      exact Or.inr (decide_eq_true h)
  · intro v
    unfold keptVisits
    rw [List.mem_filter]
    apply and_congr_right
    intro _
    unfold Visit.kept
    cases hv : v.info with
    | none => simp
    | some f =>
      cases hd : f.IsDir <;>
        by_cases hn : f.Name = "default.properties".toList <;>
        simp only [hn, decide_True, decide_False, Bool.or_true, Bool.or_false,
          Bool.not_true, Bool.not_false, Option.some.injEq, exists_eq_left', hd,
          ne_eq, not_true_eq_false, not_false_eq_true, and_self, and_false, and_true,
          Bool.false_eq_true, Bool.true_eq_false]

theorem newProject_materialized_witness :
    (writesOf
        (newProject sampleEnv (sampleOS scenarioFiles) localRepo scenarioTree
          scenarioFields).1).length
      = (keptVisits sampleEnv localRepo scenarioTree).length ∧
    writesOf
        (newProject sampleEnv (sampleOS scenarioFiles) localRepo scenarioTree
          scenarioFields).1
      = [.writeFile "demo/demo.conf".toList "owner=alice".toList 0o644 none] :=
  ⟨(newProject_materialized sampleEnv (sampleOS scenarioFiles) localRepo scenarioTree
      scenarioFields).2.2.2 (by decide), by decide⟩

/-- C7 (as stated) fails: when the source file cannot be read, the walked entry
`$name$.conf` is neither a directory nor named `default.properties` (it is a kept
visit), yet no file is written; `newProject` returns the read error. -/
theorem newProject_unreadable_counterexample :
    keptVisits sampleEnv localRepo scenarioTree
      = [⟨"/t/src/main/g8/$name$.conf".toList, some ⟨"$name$.conf".toList, false, 0o644⟩,
          none⟩] ∧
    writesOf (newProject sampleEnv unreadableOS localRepo scenarioTree scenarioFields).1
      = [] ∧
    (newProject sampleEnv unreadableOS localRepo scenarioTree scenarioFields).2
      = .ret (some (.other "open: permission denied")) := by
  decide

/-- C8: every call of the renderer made by `newProject`, for a file name or for a
content, receives the mapping `renderFieldsOf fields`; it has no binding for
`description` nor for `verbatim` and agrees with the initial mapping on every other
key. -/
theorem newProject_render_mapping (env : Env) (os : OS) (repo : URL) (tree : Node)
    (fields : Fields) :
    (∀ src m, Event.render src m ∈ (newProject env os repo tree fields).1 →
      m = renderFieldsOf fields) ∧
    Fields.lookup (renderFieldsOf fields) "description".toList = none ∧
    Fields.lookup (renderFieldsOf fields) "verbatim".toList = none ∧
    (∀ k, k ≠ "description".toList → k ≠ "verbatim".toList →
      Fields.lookup (renderFieldsOf fields) k = Fields.lookup fields k) := by
  refine ⟨?_, ?_, ?_, ?_⟩
  · by_cases h : targetOf env fields = []
    · rw [newProject_of_no_target env os repo tree fields h]
      intro src m hm
      cases hm
    · rw [newProject_of_target env os repo tree fields h]
      exact runVisits_rendersWith env os _ _ _ _ _ [] (by intro src m hm; cases hm)
  · unfold renderFieldsOf
    rw [Fields.lookup_delete_ne _ _ _ (by decide)]
    exact Fields.lookup_delete_self _ _
  · exact Fields.lookup_delete_self _ _
  · intro k hd hv
    unfold renderFieldsOf
    rw [Fields.lookup_delete_ne _ _ _ hv, Fields.lookup_delete_ne _ _ _ hd]

theorem newProject_render_mapping_witness :
    ([("name".toList, "demo".toList), ("owner".toList, "alice".toList)] : Fields)
      = renderFieldsOf verbatimFields :=
  (newProject_render_mapping sampleEnv (sampleOS scenarioFiles) localRepo scenarioTree
    verbatimFields).1 "demo/$name$.conf".toList _ (by decide)

/-! ## Evaluations at failing inputs -/

/-- C4, at a failing input: on a file system where no directory can be created,
`os.MkdirAll` answers `permission denied` for `demo`, the walk function goes on, and the
error `newProject` returns is the later failure of `ioutil.WriteFile`. -/
theorem newProject_mkdirAll_error_dropped :
    Event.mkdirAll "demo".toList 0o755 (some "mkdir: permission denied")
      ∈ (newProject sampleEnv (readOnlyOS scenarioFiles) localRepo scenarioTree
          scenarioFields).1 ∧
    (newProject sampleEnv (readOnlyOS scenarioFiles) localRepo scenarioTree
        scenarioFields).2
      = .ret (some (.other "open: no such file or directory")) := by
  decide

/-- C5, at the failing input `file:///t/` (trailing slash): the codebase root is
`/t//src/main/g8`, the walk delivers the cleaned path `/t/src/main/g8/$name$.conf`, and
the string handed to the renderer is `demo$name$.conf`, not `demo/$name$.conf`; the
file is written to `demodemo.conf`. -/
theorem newProject_trailing_slash :
    codebaseOf sampleEnv slashRepo = "/t//src/main/g8".toList ∧
    (visits (codebaseOf sampleEnv slashRepo) scenarioTree).map Visit.path
      = ["/t//src/main/g8".toList, "/t/src/main/g8/$name$.conf".toList,
         "/t/src/main/g8/default.properties".toList] ∧
    (newProject sampleEnv (sampleOS scenarioFiles) slashRepo scenarioTree
        scenarioFields).1.head?
      = some (.render "demo$name$.conf".toList
          [("name".toList, "demo".toList), ("owner".toList, "alice".toList)]) ∧
    writesOf
        (newProject sampleEnv (sampleOS scenarioFiles) slashRepo scenarioTree
          scenarioFields).1
      = [.writeFile "demodemo.conf".toList "owner=alice".toList 0o644 none] := by
  decide

/-- C10, at failing inputs: when the codebase root does not exist the walk function is
called without file information and dereferences it; when the root is `/t////src/main/g8`
the cleaned path `/t/src/main/g8/a` is shorter than the root and the slice is out of
range. Both runs end in a panic. -/
theorem newProject_panics :
    newProject sampleEnv (sampleOS scenarioFiles) localRepo
        (.gone "g8".toList "lstat: no such file or directory") scenarioFields
      = ([], .panic .nilDereference) ∧
    newProject sampleEnv (sampleOS scenarioFiles) ⟨"file".toList, "/t///".toList⟩
        tinyTree scenarioFields
      = ([], .panic .sliceBounds) := by
  decide

/-! ## Paths below a clean root -/

theorem splitSlash_ne_nil (s : Str) : splitSlash s ≠ [] := by
  cases s with
  | nil => simp [splitSlash]
  | cons c cs =>
    unfold splitSlash
    split_ifs
    · simp
    · split <;> simp

theorem splitSlash_of_no_slash (n : Str) (h : '/' ∉ n) : splitSlash n = [n] := by
  induction n with
  | nil => rfl
  | cons c cs ih =>
    have hc : c ≠ '/' := fun e => h (by simp [e])
    have hcs : '/' ∉ cs := fun e => h (List.mem_cons_of_mem _ e)
    unfold splitSlash
    rw [if_neg hc, ih hcs]

theorem splitSlash_append (a b : Str) :
    splitSlash (a ++ '/' :: b) = splitSlash a ++ splitSlash b := by
  induction a with
  | nil => simp [splitSlash]
  | cons c cs ih =>
    rw [List.cons_append]
    by_cases hc : c = '/'
    · rw [splitSlash, if_pos hc, ih]
      conv_rhs => rw [splitSlash, if_pos hc]
      rfl
    · rw [splitSlash, if_neg hc, ih]
      conv_rhs => rw [splitSlash, if_neg hc]
      cases hs : splitSlash cs with
      | nil => exact absurd hs (splitSlash_ne_nil cs)
      | cons p ps => rfl

theorem joinSlash_snoc (xs : List Str) (n : Str) (h : xs ≠ []) :
    joinSlash (xs ++ [n]) = joinSlash xs ++ '/' :: n := by
  induction xs with
  | nil => exact absurd rfl h
  | cons x rest ih =>
    cases rest with
    | nil => simp [joinSlash]
    | cons y ys =>
      have := ih (by simp)
      show x ++ '/' :: joinSlash (y :: ys ++ [n]) = x ++ '/' :: joinSlash (y :: ys) ++ '/' :: n
      rw [this]
      simp

theorem cleanStep_plain (rooted : Bool) (out : List Str) (n : Str)
    (h : plainName n = true) : cleanStep rooted out n = n :: out := by
  simp only [plainName, Bool.and_eq_true, decide_eq_true_eq] at h
  obtain ⟨⟨⟨h1, _⟩, h3⟩, h4⟩ := h
  unfold cleanStep
  rw [if_neg h1, if_neg h3, if_neg h4]

theorem Clean_child (p n : Str) (hp : GoodRoot p) (hn : plainName n = true) :
    Clean (p ++ '/' :: n) = p ++ '/' :: n := by
  obtain ⟨hclean, hslash, hdot⟩ := hp
  have hno : '/' ∉ n := by
    simp only [plainName, Bool.and_eq_true, decide_eq_true_eq] at hn
    exact hn.1.1.2
  cases p with
  | nil => exact absurd hclean (by simp [Clean])
  | cons c cs =>
    have hfold : (splitSlash (c :: cs ++ '/' :: n)).foldl (cleanStep (decide (c = '/'))) []
        = n :: (splitSlash (c :: cs)).foldl (cleanStep (decide (c = '/'))) [] := by
      rw [splitSlash_append, splitSlash_of_no_slash n hno, List.foldl_append]
      simp only [List.foldl_cons, List.foldl_nil]
      exact cleanStep_plain _ _ _ hn
    have hc : Clean (c :: cs)
        = if decide (c = '/') = true then
            '/' :: joinSlash ((splitSlash (c :: cs)).foldl
              (cleanStep (decide (c = '/'))) []).reverse
          else if (splitSlash (c :: cs)).foldl (cleanStep (decide (c = '/'))) [] = [] then
            ['.']
          else joinSlash ((splitSlash (c :: cs)).foldl
              (cleanStep (decide (c = '/'))) []).reverse := rfl
    have hc2 : Clean (c :: cs ++ '/' :: n)
        = if decide (c = '/') = true then
            '/' :: joinSlash ((splitSlash (c :: cs ++ '/' :: n)).foldl
              (cleanStep (decide (c = '/'))) []).reverse
          else if (splitSlash (c :: cs ++ '/' :: n)).foldl
              (cleanStep (decide (c = '/'))) [] = [] then ['.']
          else joinSlash ((splitSlash (c :: cs ++ '/' :: n)).foldl
              (cleanStep (decide (c = '/'))) []).reverse := rfl
    rw [hc2, hfold]
    rw [hc] at hclean
    generalize (splitSlash (c :: cs)).foldl (cleanStep (decide (c = '/'))) [] = out
      at hclean
    have hout : out ≠ [] := by
      intro he
      subst he
      by_cases hr : decide (c = '/') = true
      · rw [if_pos hr] at hclean
        exact hslash (by simpa [joinSlash] using hclean.symm)
      · rw [if_neg hr] at hclean
        simp only [if_true] at hclean
        exact hdot hclean.symm
    have hrev : out.reverse ≠ [] := by simpa using hout
    by_cases hr : decide (c = '/') = true
    · rw [if_pos hr] at hclean ⊢
      rw [List.reverse_cons, joinSlash_snoc _ _ hrev, ← hclean]
      simp
    · rw [if_neg hr, if_neg hout] at hclean
      rw [if_neg hr, if_neg (by simp), List.reverse_cons, joinSlash_snoc _ _ hrev, hclean]

theorem Join_child (p n : Str) (hp : GoodRoot p) (hn : plainName n = true) :
    Join p n = p ++ '/' :: n := by
  have hne : p ≠ [] := by
    intro he
    have := hp.1
    rw [he] at this
    simp [Clean] at this
  unfold Join
  rw [if_pos hne]
  exact Clean_child p n hp hn

theorem GoodRoot_child (p n : Str) (hp : GoodRoot p) (hn : plainName n = true) :
    GoodRoot (p ++ '/' :: n) := by
  refine ⟨Clean_child p n hp hn, ?_, ?_⟩
  · intro h
    have := congrArg List.length h
    simp at this
    have hne : p ≠ [] := by
      intro he
      have := hp.1
      rw [he] at this
      simp [Clean] at this
    exact hne (List.length_eq_zero.1 (by omega))
  · intro h
    have := congrArg List.length h
    simp at this
    have hne : p ≠ [] := by
      intro he
      have := hp.1
      rw [he] at this
      simp [Clean] at this
    exact hne (List.length_eq_zero.1 (by omega))

theorem Below_refl (p : Str) : Below p p := ⟨[], by simp, Or.inl rfl⟩

theorem Below_child (p n q : Str) (h : Below (p ++ '/' :: n) q) : Below p q := by
  obtain ⟨rest, hq, _⟩ := h
  exact ⟨'/' :: n ++ rest, by simp [hq], Or.inr rfl⟩

theorem Below_child_ne (p n q : Str) (h : Below (p ++ '/' :: n) q) : q ≠ p := by
  obtain ⟨rest, hq, _⟩ := h
  intro he
  have := congrArg List.length (hq.symm.trans he)
  simp at this

theorem name_eq_of_append_eq (a : Str) :
    ∀ (b r1 r2 : Str), '/' ∉ a → '/' ∉ b →
      (r1 = [] ∨ r1.head? = some '/') → (r2 = [] ∨ r2.head? = some '/') →
      a ++ r1 = b ++ r2 → a = b := by
  induction a with
  | nil =>
    intro b r1 r2 _ hb h1 _ he
    cases b with
    | nil => rfl
    | cons d b1 =>
      simp only [List.nil_append] at he
      subst he
      rcases h1 with h1 | h1
      · simp at h1
      · simp at h1
        exact absurd (by simp [h1]) hb
  | cons c a1 ih =>
    intro b r1 r2 ha hb h1 h2 he
    cases b with
    | nil =>
      simp only [List.nil_append] at he
      subst he
      rcases h2 with h2 | h2
      · simp at h2
      · simp at h2
        exact absurd (by simp [h2]) ha
    | cons d b1 =>
      simp only [List.cons_append, List.cons.injEq] at he
      obtain ⟨hcd, hrest⟩ := he
      have ha1 : '/' ∉ a1 := fun e => ha (List.mem_cons_of_mem _ e)
      have hb1 : '/' ∉ b1 := fun e => hb (List.mem_cons_of_mem _ e)
      rw [hcd, ih b1 r1 r2 ha1 hb1 h1 h2 hrest]

theorem Below_children_ne (p a b q1 q2 : Str) (ha : '/' ∉ a) (hb : '/' ∉ b) (hab : a ≠ b)
    (h1 : Below (p ++ '/' :: a) q1) (h2 : Below (p ++ '/' :: b) q2) : q1 ≠ q2 := by
  obtain ⟨r1, hq1, hr1⟩ := h1
  obtain ⟨r2, hq2, hr2⟩ := h2
  intro he
  rw [hq1, hq2] at he
  simp only [List.append_assoc, List.cons_append, List.append_cancel_left_eq,
    List.cons.injEq, true_and] at he
  exact hab (name_eq_of_append_eq a b r1 r2 ha hb hr1 hr2 he)

theorem plainName_no_slash (n : Str) (h : plainName n = true) : '/' ∉ n := by
  simp only [plainName, Bool.and_eq_true, decide_eq_true_eq] at h
  exact h.1.1.2

mutual
theorem visits_below (p : Str) (hp : GoodRoot p) :
    ∀ (node : Node), node.wellFormed = true → ∀ v ∈ visits p node, Below p v.path
  | .file name mode, _, v, hv => by
    simp only [visits, List.mem_singleton] at hv
    subst hv
    exact Below_refl p
  | .lockedDir name mode err, _, v, hv => by
    simp only [visits, List.mem_singleton] at hv
    subst hv
    exact Below_refl p
  | .gone name err, _, v, hv => by
    simp only [visits, List.mem_singleton] at hv
    subst hv
    exact Below_refl p
  | .dir name mode kids, hwf, v, hv => by
    simp only [visits, List.mem_cons] at hv
    simp only [Node.wellFormed, Bool.and_eq_true] at hwf
    rcases hv with hv | hv
    · subst hv
      exact Below_refl p
    · obtain ⟨n, _, hb⟩ := visitsNames_below p hp kids hwf.1 v hv
      exact Below_child p n _ hb
theorem visitsNames_below (p : Str) (hp : GoodRoot p) :
    ∀ (kids : NodeList), kids.wellFormed = true →
      ∀ v ∈ visitsNames p kids, ∃ n ∈ kids.names, Below (p ++ '/' :: n) v.path
  | .nil, _, v, hv => by simp [visitsNames] at hv
  | .cons k ks, hwf, v, hv => by
    simp only [NodeList.wellFormed, Bool.and_eq_true] at hwf
    obtain ⟨⟨hname, hk⟩, hks⟩ := hwf
    simp only [visitsNames, List.mem_append] at hv
    rcases hv with hv | hv
    · rw [Join_child p k.name hp hname] at hv
      exact ⟨k.name, by simp [NodeList.names],
        visits_below (p ++ '/' :: k.name) (GoodRoot_child p k.name hp hname) k hk v hv⟩
    · obtain ⟨n, hn, hb⟩ := visitsNames_below p hp ks hks v hv
      exact ⟨n, by simp [NodeList.names, hn], hb⟩
end

theorem names_plain :
    ∀ (kids : NodeList), kids.wellFormed = true → ∀ n ∈ kids.names, plainName n = true
  | .nil, _, n, hn => by simp [NodeList.names] at hn
  | .cons k ks, hwf, n, hn => by
    simp only [NodeList.wellFormed, Bool.and_eq_true] at hwf
    simp only [NodeList.names, List.mem_cons] at hn
    rcases hn with hn | hn
    · rw [hn]; exact hwf.1.1
    · exact names_plain ks hwf.2 n hn

mutual
theorem visits_nodup (p : Str) (hp : GoodRoot p) :
    ∀ (node : Node), node.wellFormed = true → ((visits p node).map Visit.path).Nodup
  | .file name mode, _ => by simp [visits]
  | .lockedDir name mode err, _ => by simp [visits]
  | .gone name err, _ => by simp [visits]
  | .dir name mode kids, hwf => by
    simp only [Node.wellFormed, Bool.and_eq_true, decide_eq_true_eq] at hwf
    simp only [visits, List.map_cons, List.nodup_cons, List.mem_map, not_exists, not_and]
    refine ⟨?_, visitsNames_nodup p hp kids hwf.1 hwf.2⟩
    intro v hv
    obtain ⟨n, _, hb⟩ := visitsNames_below p hp kids hwf.1 v hv
    exact Below_child_ne p n _ hb
theorem visitsNames_nodup (p : Str) (hp : GoodRoot p) :
    ∀ (kids : NodeList), kids.wellFormed = true → kids.names.Nodup →
      ((visitsNames p kids).map Visit.path).Nodup
  | .nil, _, _ => by simp [visitsNames]
  | .cons k ks, hwf, hnd => by
    have hwf0 := hwf
    simp only [NodeList.wellFormed, Bool.and_eq_true] at hwf
    obtain ⟨⟨hname, hk⟩, hks⟩ := hwf
    simp only [NodeList.names, List.nodup_cons] at hnd
    simp only [visitsNames, List.map_append]
    rw [List.nodup_append]
    refine ⟨?_, visitsNames_nodup p hp ks hks hnd.2, ?_⟩
    · rw [Join_child p k.name hp hname]
      exact visits_nodup (p ++ '/' :: k.name) (GoodRoot_child p k.name hp hname) k hk
    · intro q hq1 hq2
      simp only [List.mem_map] at hq1 hq2
      obtain ⟨v1, hv1, rfl⟩ := hq1
      obtain ⟨v2, hv2, he⟩ := hq2
      rw [Join_child p k.name hp hname] at hv1
      have hb1 := visits_below (p ++ '/' :: k.name) (GoodRoot_child p k.name hp hname)
        k hk v1 hv1
      obtain ⟨n, hn, hb2⟩ := visitsNames_below p hp ks hks v2 hv2
      have hne : k.name ≠ n := fun e => hnd.1 (e ▸ hn)
      exact Below_children_ne p k.name n _ _ (plainName_no_slash _ hname)
        (plainName_no_slash _ (names_plain ks hks n hn)) hne hb1 hb2 he.symm
end


theorem visits_templated_nodup (env : Env) (repo : URL) (fields : Fields) (tree : Node)
    (hroot : GoodRoot (codebaseOf env repo)) (hwf : tree.wellFormed = true) :
    ((keptVisits env repo tree).map (templatedPath env repo fields)).Nodup := by
  have hpaths := visits_nodup (codebaseOf env repo) hroot tree hwf
  have hall : ((visits (codebaseOf env repo) tree).map
      (templatedPath env repo fields)).Nodup := by
    have hmap : (visits (codebaseOf env repo) tree).map (templatedPath env repo fields)
        = ((visits (codebaseOf env repo) tree).map Visit.path).map
            (fun q => targetOf env fields ++ q.drop (codebaseOf env repo).length) := by
      rw [List.map_map]
      rfl
    rw [hmap]
    refine List.Nodup.map_on ?_ hpaths
    intro q1 h1 q2 h2 he
    simp only [List.mem_map] at h1 h2
    obtain ⟨v1, hv1, rfl⟩ := h1
    obtain ⟨v2, hv2, rfl⟩ := h2
    obtain ⟨r1, hq1, _⟩ := visits_below (codebaseOf env repo) hroot tree hwf v1 hv1
    obtain ⟨r2, hq2, _⟩ := visits_below (codebaseOf env repo) hroot tree hwf v2 hv2
    rw [hq1, hq2] at he ⊢
    simp only [List.drop_left, List.append_cancel_left_eq] at he
    rw [he]
  exact List.Nodup.sublist (List.Sublist.map _ (List.filter_sublist _)) hall

theorem forall₂_exists_left {α β : Type} (R : α → β → Prop) :
    ∀ (xs : List α) (ys : List β), List.Forall₂ R xs ys → ∀ y ∈ ys, ∃ x ∈ xs, R x y := by
  intro xs ys h
  induction h with
  | nil => intro y hy; cases hy
  | cons hxy _ ih =>
    intro y hy
    rcases List.mem_cons.1 hy with rfl | hy
    · exact ⟨_, List.mem_cons_self _ _, hxy⟩
    · obtain ⟨x, hx, hr⟩ := ih y hy
      exact ⟨x, List.mem_cons_of_mem _ hx, hr⟩

theorem dest_nodup_of_materializes (env : Env) (os : OS) (repo : URL) (fields : Fields) :
    ∀ (vs : List Visit) (ws : List Event),
      List.Forall₂
        (Materializes env os (targetOf env fields) (renderFieldsOf fields)
          (patternsOf fields) (codebaseOf env repo).length) vs ws →
      (vs.map (templatedPath env repo fields)).Nodup →
      (∀ v1 ∈ vs, ∀ v2 ∈ vs,
        env.Render (templatedPath env repo fields v1) (renderFieldsOf fields)
          = env.Render (templatedPath env repo fields v2) (renderFieldsOf fields) →
        templatedPath env repo fields v1 = templatedPath env repo fields v2) →
      (ws.map Event.dest).Nodup := by
  intro vs ws h
  induction h with
  | nil => intro _ _; simp
  | @cons v w vs1 ws1 hvw hrest ih =>
    intro hnd hinj
    simp only [List.map_cons, List.nodup_cons] at hnd ⊢
    refine ⟨?_, ih hnd.2 (fun v1 h1 v2 h2 =>
      hinj v1 (List.mem_cons_of_mem _ h1) v2 (List.mem_cons_of_mem _ h2))⟩
    intro hmem
    simp only [List.mem_map] at hmem
    obtain ⟨w1, hw1, hd⟩ := hmem
    obtain ⟨v1, hv1, hM1⟩ := forall₂_exists_left _ _ _ hrest w1 hw1
    obtain ⟨f, dest, content, data, _, hR, _, _, hw⟩ := hvw
    obtain ⟨f1, dest1, content1, data1, _, hR1, _, _, hw1e⟩ := hM1
    have hdd : dest1 = dest := by
      rw [hw, hw1e] at hd
      exact hd
    have ht : templatedPath env repo fields v = templatedPath env repo fields v1 := by
      apply hinj v (List.mem_cons_self _ _) v1 (List.mem_cons_of_mem _ hv1)
      unfold templatedPath
      rw [hR, hR1, hdd]
    exact hnd.1 (List.mem_map.2 ⟨v1, hv1, ht.symm⟩)

/-- C9 (as amended): in a run of `newProject` that returns `nil`, from a codebase root in
cleaned form (neither `/` nor `.`) over a tree in which every entry has a plain name and
no directory lists a name twice, if the renderer gives different results on the
different file names handed to it, then every kept visit is written exactly once and no
destination path is written twice. -/
theorem newProject_distinct_destinations (env : Env) (os : OS) (repo : URL) (tree : Node)
    (fields : Fields)
    (hclean : Clean (codebaseOf env repo) = codebaseOf env repo)
    (hslash : codebaseOf env repo ≠ ['/']) (hdot : codebaseOf env repo ≠ ['.'])
    (hwf : tree.wellFormed = true)
    (hinj : ∀ v1 ∈ keptVisits env repo tree, ∀ v2 ∈ keptVisits env repo tree,
      env.Render (templatedPath env repo fields v1) (renderFieldsOf fields)
        = env.Render (templatedPath env repo fields v2) (renderFieldsOf fields) →
      templatedPath env repo fields v1 = templatedPath env repo fields v2)
    (hok : (newProject env os repo tree fields).2 = .ret none) :
    (writesOf (newProject env os repo tree fields).1).length
      = (keptVisits env repo tree).length ∧
    List.Forall₂
      (Materializes env os (targetOf env fields) (renderFieldsOf fields)
        (patternsOf fields) (codebaseOf env repo).length)
      (keptVisits env repo tree) (writesOf (newProject env os repo tree fields).1) ∧
    ((writesOf (newProject env os repo tree fields).1).map Event.dest).Nodup := by
  obtain ⟨_, hF, hlen⟩ := newProject_writes env os repo tree fields
  have hlen1 := hlen hok
  rw [hlen1, List.take_length] at hF
  exact ⟨hlen1, hF, dest_nodup_of_materializes env os repo fields _ _ hF
    (visits_templated_nodup env repo fields tree ⟨hclean, hslash, hdot⟩ hwf) hinj⟩

theorem newProject_distinct_destinations_witness :
    (writesOf
        (newProject sampleEnv (sampleOS pairFiles) localRepo pairTree scenarioFields).1).length
      = (keptVisits sampleEnv localRepo pairTree).length ∧
    List.Forall₂
      (Materializes sampleEnv (sampleOS pairFiles) (targetOf sampleEnv scenarioFields)
        (renderFieldsOf scenarioFields) (patternsOf scenarioFields)
        (codebaseOf sampleEnv localRepo).length)
      (keptVisits sampleEnv localRepo pairTree)
      (writesOf
        (newProject sampleEnv (sampleOS pairFiles) localRepo pairTree scenarioFields).1) ∧
    ((writesOf
        (newProject sampleEnv (sampleOS pairFiles) localRepo pairTree scenarioFields).1).map
      Event.dest).Nodup :=
  newProject_distinct_destinations sampleEnv (sampleOS pairFiles) localRepo pairTree
    scenarioFields (by decide) (by decide) (by decide) (by decide) (by decide) (by decide)

/-- C9 (as stated) fails: with the renderer that replaces `$name$` by `demo`, the
template files `$name$.conf` and `demo.conf` are two source files of a run that
returns `nil`, and both are written to `demo/demo.conf`. -/
theorem newProject_collision_counterexample :
    (newProject sampleEnv (sampleOS collisionFiles) localRepo collisionTree
        scenarioFields).2 = .ret none ∧
    (keptVisits sampleEnv localRepo collisionTree).map Visit.path
      = ["/t/src/main/g8/$name$.conf".toList, "/t/src/main/g8/demo.conf".toList] ∧
    writesOf
        (newProject sampleEnv (sampleOS collisionFiles) localRepo collisionTree
          scenarioFields).1
      = [.writeFile "demo/demo.conf".toList "owner=alice".toList 0o644 none,
         .writeFile "demo/demo.conf".toList "fixed".toList 0o644 none] := by
  decide

end G8
